import Mathlib

/-!
Shallow embedding of the shogi engine core (`src/ai-core.ts`) and proofs
about it.

Modelling conventions:
* JavaScript numbers used as scores are modelled by `ℚ` (the score
  arithmetic of the source uses `+ - *`, the constant factors `1.5`, `0.9`,
  `0.7`, and `Math.floor`; no claim below depends on binary floating-point
  rounding).
* Hand counts and depths are modelled by `ℤ` (they can be negative in the
  source).
* A JavaScript string is modelled by `List Char`.
* 32-bit unsigned integers (Zobrist keys) are modelled by `Nat` with
  explicit `% 2 ^ 32` where the source relies on 32-bit wrap-around.
* Mutable objects (transposition table, killer table, history table, the
  wall clock) are threaded as explicit state; `Date.now()` is modelled by a
  stream `clock : Nat → Int` read at exactly the program points where the
  source calls it.
-/

set_option maxRecDepth 100000

namespace ShogiAI

/-- Side of a player (`type Side = "black" | "white"`). -/
inductive Side
| black
| white
deriving DecidableEq, Repr

/-- Opponent side (`side==="black"?"white":"black"`). -/
def Side.other : Side → Side
| .black => .white
| .white => .black

/-- Base piece kinds (`type BasePiece`). -/
inductive BasePiece
| K | R | B | G | S | N | L | P
deriving DecidableEq, Repr

/-- All piece kinds: the eight base kinds plus the six promoted variants
(`type PieceType = BasePiece | PromotedPiece`). -/
inductive PieceType
| K | R | B | G | S | N | L | P
| PR | PB | PS | PN | PL | PP
deriving DecidableEq, Repr

/-- Embeds a base kind into `PieceType`. -/
def BasePiece.toType : BasePiece → PieceType
| .K => .K | .R => .R | .B => .B | .G => .G
| .S => .S | .N => .N | .L => .L | .P => .P

/-- A piece on the board (`interface Piece`). -/
structure Piece where
  side : Side
  type : PieceType
deriving DecidableEq, Repr

/-- A board square coordinate.  The board is always 9×9, so coordinates are
`Fin 9` (the source checks `inBounds` before every access). -/
abbrev Pos := Fin 9 × Fin 9

/-- The board (`type Board = Square[][]`, each square holding
`piece?: Piece | null`). -/
abbrev Board := Fin 9 → Fin 9 → Option Piece

/-- A hand (`type Hand = Record<Exclude<BasePiece,"K">, number>`).  At
runtime an entry can be missing (`undefined`, modelled by `none`) or hold
any integer; the source statically excludes `K` but the record is indexed
here by all base kinds for simplicity (no operation ever inserts a king). -/
abbrev Hand := BasePiece → Option Int

/-- `promotableBase` table of the source. -/
def promotableBase : BasePiece → Bool
| .K => false | .G => false
| .R => true | .B => true | .S => true | .N => true | .L => true | .P => true

/-- `promoteMap` of the source. -/
def promoteMap : BasePiece → Option PieceType
| .K => none | .G => none
| .R => some .PR | .B => some .PB | .S => some .PS
| .N => some .PN | .L => some .PL | .P => some .PP

/-- `demoteMap` of the source. -/
def demoteMap : PieceType → BasePiece
| .K => .K | .R => .R | .B => .B | .G => .G
| .S => .S | .N => .N | .L => .L | .P => .P
| .PR => .R | .PB => .B | .PS => .S | .PN => .N | .PL => .L | .PP => .P

/-- `isPromoted` of the source. -/
def isPromoted : PieceType → Bool
| .PR => true | .PB => true | .PS => true
| .PN => true | .PL => true | .PP => true
| _ => false

/-- `isPromotableType` of the source
(`!isPromoted(t) && promotableBase[t]`). -/
def isPromotableType (t : PieceType) : Bool :=
  !isPromoted t && promotableBase (demoteMap t)

/-- `toPromoted` of the source (`promoteMap[t] ?? t`), lifted to
`PieceType` because the source casts `mover.type as BasePiece` at its one
call site (where `isPromotableType` guarantees the type is a base kind). -/
def toPromoted (t : PieceType) : PieceType :=
  (promoteMap (demoteMap t)).getD t

/-- Builds a `Pos` from integer coordinates when they are in bounds
(`inBounds` of the source). -/
def mkPos? (r c : Int) : Option Pos :=
  if h : 0 ≤ r ∧ r < 9 ∧ 0 ≤ c ∧ c < 9 then
    some (⟨r.toNat, by omega⟩, ⟨c.toNat, by omega⟩)
  else none

/-- `cloneBoard`: in this pure model a board is a value, so the deep copy
of the source is the identity. -/
def cloneBoard : Board → Board := id

/-- Row-major list of all 81 squares (the `for(r) for(c)` scan order of the
source). -/
def squaresList : List Pos :=
  (List.finRange 9).flatMap (fun r => (List.finRange 9).map (fun c => (r, c)))

/-- `findKing` of the source: first square (row-major) holding a piece of
the given side whose demotion is the king. -/
def findKing (bd : Board) (side : Side) : Option Pos :=
  squaresList.find? (fun q =>
    match bd q.1 q.2 with
    | some p => decide (p.side = side) && decide (demoteMap p.type = .K)
    | none => false)

/-- `hasPawnInFile` of the source: some square of the column holds a piece
of the side whose demotion is a pawn (note: this includes promoted pawns). -/
def hasPawnInFile (bd : Board) (side : Side) (col : Fin 9) : Bool :=
  (List.finRange 9).any (fun r =>
    match bd r col with
    | some p => decide (p.side = side) && decide (demoteMap p.type = .P)
    | none => false)

/-- One ray walk of `rayMoves`: slide from `(r,c)` in direction `(dr,dc)`
until leaving the board or hitting a piece, capturing an enemy blocker.
The source's `while(inBounds(...))` loop takes at most 9 steps because the
direction is never `(0,0)`; fuel 9 therefore reproduces it exactly. -/
def rayWalk (bd : Board) (side : Side) (dr dc : Int) : Nat → Int → Int → List Pos
| 0, _, _ => []
| fuel + 1, r, c =>
  match mkPos? r c with
  | none => []
  | some q =>
    match bd q.1 q.2 with
    | none => q :: rayWalk bd side dr dc fuel (r + dr) (c + dc)
    | some occ => if occ.side ≠ side then [q] else []

/-- `rayMoves` of the source. -/
def rayMoves (bd : Board) (r c : Fin 9) (deltas : List (Int × Int)) (side : Side) :
    List Pos :=
  deltas.flatMap (fun d =>
    rayWalk bd side d.1 d.2 9 ((r : Int) + d.1) ((c : Int) + d.2))

/-- `stepMoves` of the source. -/
def stepMoves (bd : Board) (r c : Fin 9) (deltas : List (Int × Int)) (side : Side) :
    List Pos :=
  deltas.filterMap (fun d =>
    match mkPos? ((r : Int) + d.1) ((c : Int) + d.2) with
    | none => none
    | some q =>
      match bd q.1 q.2 with
      | none => some q
      | some occ => if occ.side ≠ side then some q else none)

/-- `goldLike` of the source. -/
def goldLike (bd : Board) (r c : Fin 9) (side : Side) : List Pos :=
  stepMoves bd r c
    (if side = .black then
      [(-1,0),(0,-1),(0,1),(1,-1),(1,0),(1,1)]
    else
      [(1,0),(0,-1),(0,1),(-1,-1),(-1,0),(-1,1)]) side

/-- `legalMoves` of the source: pseudo-legal destinations of the piece on
`(r,c)` (empty list when the square is empty). -/
def legalMoves (bd : Board) (r c : Fin 9) : List Pos :=
  match bd r c with
  | none => []
  | some p =>
    let side := p.side
    let dir : Int := if side = .black then 1 else -1
    match p.type with
    | .PR => rayMoves bd r c [(1,0),(-1,0),(0,1),(0,-1)] side ++
             stepMoves bd r c [(1,1),(1,-1),(-1,1),(-1,-1)] side
    | .PB => rayMoves bd r c [(1,1),(1,-1),(-1,1),(-1,-1)] side ++
             stepMoves bd r c [(1,0),(-1,0),(0,1),(0,-1)] side
    | .PS => goldLike bd r c side
    | .PN => goldLike bd r c side
    | .PL => goldLike bd r c side
    | .PP => goldLike bd r c side
    | .K => stepMoves bd r c [(-1,-1),(-1,0),(-1,1),(0,-1),(0,1),(1,-1),(1,0),(1,1)] side
    | .G => goldLike bd r c side
    | .S => stepMoves bd r c
        (if dir = 1 then [(1,-1),(1,0),(1,1),(-1,-1),(-1,1)]
         else [(-1,-1),(-1,0),(-1,1),(1,-1),(1,1)]) side
    | .N => stepMoves bd r c
        (if dir = 1 then [(2,-1),(2,1)] else [(-2,-1),(-2,1)]) side
    | .L => rayMoves bd r c [(dir,0)] side
    | .P => stepMoves bd r c [(dir,0)] side
    | .B => rayMoves bd r c [(1,1),(1,-1),(-1,1),(-1,-1)] side
    | .R => rayMoves bd r c [(1,0),(-1,0),(0,1),(0,-1)] side

/-- `inEnemyZone` of the source. -/
def inEnemyZone (side : Side) (r : Fin 9) : Bool :=
  if side = .black then 6 ≤ r.val else r.val ≤ 2

/-- `involvesEnemyZone` of the source. -/
def involvesEnemyZone (side : Side) (fromR toR : Fin 9) : Bool :=
  inEnemyZone side fromR || inEnemyZone side toR

/-- `isForcedPromotion` of the source. -/
def isForcedPromotion (side : Side) (pt : PieceType) (toR : Fin 9) : Bool :=
  let t := if isPromoted pt then demoteMap pt else demoteMap pt
  if t = .P ∨ t = .L then
    decide ((side = .black ∧ toR.val = 8) ∨ (side = .white ∧ toR.val = 0))
  else if t = .N then
    decide ((side = .black ∧ 7 ≤ toR.val) ∨ (side = .white ∧ toR.val ≤ 1))
  else false

/-- `pieceValue` of the source. -/
def pieceValue : BasePiece → ℚ
| .P => 100 | .L => 330 | .N => 320 | .S => 450
| .G => 500 | .B => 850 | .R => 1000 | .K => 10000

/-- `seeGain` of the source.  The source asserts the attacker square is
occupied (`bd[from.r][from.c].piece!`); on the moves it is called with it
always is, and for totality an empty origin contributes value 0. -/
def seeGain (bd : Board) (f t : Pos) : ℚ :=
  match bd t.1 t.2 with
  | none => 0
  | some victim =>
    let v := pieceValue (demoteMap victim.type)
    let a := match bd f.1 f.2 with
      | some att => pieceValue (demoteMap att.type)
      | none => 0
    v - ((Int.floor (a * (7 / 10 : ℚ)) : Int) : ℚ)

/-- An internal move (`type GenMove` of the source): a board move with the
recorded captured piece and promotion flag, or a drop.  The source's drop
piece type excludes `K`; the generator below only ever produces the seven
droppable kinds. -/
inductive GenMove
| move (fromSq toSq : Pos) (took : Option Piece) (promote : Bool)
| drop (piece : BasePiece) (at_ : Pos)
deriving DecidableEq, Repr

/-- Point update of a board square. -/
def setP (bd : Board) (q : Pos) (v : Option Piece) : Board :=
  fun r c => if r = q.1 ∧ c = q.2 then v else bd r c

/-- Point update of a hand entry (JS record assignment). -/
def setHand (h : Hand) (b : BasePiece) (v : Int) : Hand :=
  fun b' => if b' = b then some v else h b'

/-- Result record of `applyOneMove`. -/
structure ApplyRes where
  bd : Board
  hB : Hand
  hW : Hand
  winner : Option Side

/-- `applyOneMove` of the source.  The source asserts the origin of a board
move is occupied (`nextB[m.from.r][m.from.c].piece!`); on generated moves
it always is (see `mem_enumerate_move`), and for totality an empty origin
simply moves the empty square. -/
def applyOneMove (bd : Board) (hB hW : Hand) (side : Side) (m : GenMove) : ApplyRes :=
  match m with
  | .drop pc at_ =>
    let nextB := setP (cloneBoard bd) at_ (some ⟨side, pc.toType⟩)
    let oldH : Hand := if side = .black then hB else hW
    let newH := setHand oldH pc (max 0 ((oldH pc).getD 0 - 1))
    { bd := nextB
      hB := if side = .black then newH else hB
      hW := if side = .black then hW else newH
      winner := none }
  | .move f t took promote =>
    let mover := (cloneBoard bd) f.1 f.2
    let win : Option Side :=
      match took with
      | some v => if demoteMap v.type = .K then some side else none
      | none => none
    let handUpd : Hand → Hand := fun h =>
      match took with
      | some v =>
        let base := demoteMap v.type
        if base = .K then h else setHand h base ((h base).getD 0 + 1)
      | none => h
    let nextHB := if side = .black then handUpd hB else hB
    let nextHW := if side = .black then hW else handUpd hW
    let afterPiece : Option Piece := mover.map (fun mv =>
      ⟨side, if promote && isPromotableType mv.type then toPromoted mv.type else mv.type⟩)
    let nextB := setP (setP bd t afterPiece) f none
    { bd := nextB, hB := nextHB, hW := nextHW, winner := win }

/-- The drop legality test inlined in `enumerateMovesGeneric` (`canDrop`). -/
def canDrop (bd : Board) (side : Side) (t : BasePiece) (r c : Fin 9) : Bool :=
  if (bd r c).isSome then false
  else if t = .P ∧ ((side = .black ∧ r.val = 8) ∨ (side = .white ∧ r.val = 0)) then false
  else if t = .P ∧ hasPawnInFile bd side c then false
  else if t = .L ∧ ((side = .black ∧ r.val = 8) ∨ (side = .white ∧ r.val = 0)) then false
  else if t = .N ∧ ((side = .black ∧ 7 ≤ r.val) ∨ (side = .white ∧ r.val ≤ 1)) then false
  else true

/-- Board moves produced from one origin square by `enumerateMovesGeneric`. -/
def boardMovesFrom (bd : Board) (side : Side) (q : Pos) : List GenMove :=
  match bd q.1 q.2 with
  | none => []
  | some p =>
    if p.side = side then
      (legalMoves bd q.1 q.2).flatMap (fun t =>
        let dest := bd t.1 t.2
        let must := isPromotableType p.type && isForcedPromotion side p.type t.1
        let canBasic := isPromotableType p.type && involvesEnemyZone side q.1 t.1
        if must then [.move q t dest true]
        else if canBasic then [.move q t dest true, .move q t dest false]
        else [.move q t dest false])
    else []

/-- The hand-kind scan order of the source's drop generation. -/
def dropOrder : List BasePiece := [.R, .B, .G, .S, .N, .L, .P]

/-- `enumerateMovesGeneric` of the source: all board moves (row-major over
origins) followed by all drops (per hand kind with a positive count). -/
def enumerateMovesGeneric (bd : Board) (handB handW : Hand) (side : Side) :
    List GenMove :=
  let boardPart := squaresList.flatMap (boardMovesFrom bd side)
  let hand := if side = .black then handB else handW
  let dropPart := dropOrder.flatMap (fun t =>
    if (hand t).getD 0 ≤ 0 then []
    else squaresList.filterMap (fun q =>
      if canDrop bd side t q.1 q.2 then some (.drop t q) else none))
  boardPart ++ dropPart

/-! ## Move codec (`pack` / `unpack`) -/

/-- A packed move (`type PackedMove = string`), a JS string modelled as a
character list. -/
abbrev PackedMove := List Char

/-- Decimal digit character of a coordinate. -/
def digitOf (n : Fin 9) : Char := Char.ofNat (48 + n.val)

/-- Letter of a base piece kind (the string interpolation `${m.piece}`). -/
def pieceChar : BasePiece → Char
| .K => 'K' | .R => 'R' | .B => 'B' | .G => 'G'
| .S => 'S' | .N => 'N' | .L => 'L' | .P => 'P'

/-- `pack` of the source: `"m:fr,fc,tr,tc,p"` or `"d:pc,atR,atC"`. -/
def pack (m : GenMove) : PackedMove :=
  match m with
  | .drop pc at_ =>
    ['d', ':', pieceChar pc, ',', digitOf at_.1, ',', digitOf at_.2]
  | .move f t _ promote =>
    ['m', ':', digitOf f.1, ',', digitOf f.2, ',', digitOf t.1, ',',
     digitOf t.2, ',', if promote then '1' else '0']

/-- JS `String.prototype.split` restricted to a single-character
separator. -/
def splitOnChar (sep : Char) : List Char → List (List Char)
| [] => [[]]
| a :: l =>
  let r := splitOnChar sep l
  if a = sep then [] :: r else (a :: r.headD []) :: r.tail

/-- Parses a nonempty all-digit string (`Number(...)` on the strings the
codec produces). -/
def parseNatD (l : List Char) : Option Nat :=
  match l with
  | [] => none
  | _ =>
    if l.all (fun c => c.isDigit) then
      some (l.foldl (fun acc c => acc * 10 + (c.toNat - 48)) 0)
    else none

/-- Parses a coordinate.  The source's `Number(...)` would hand an
out-of-range coordinate to a board access that throws (for board moves);
the model returns `none` for any coordinate outside the 9×9 board. -/
def parseFin9 (l : List Char) : Option (Fin 9) :=
  (parseNatD l).bind (fun n => if h : n < 9 then some ⟨n, h⟩ else none)

/-- Parses a piece letter (the source casts the raw string with `as any`;
only the eight base letters ever reach it from `pack`). -/
def parseBase (l : List Char) : Option BasePiece :=
  match l with
  | ['K'] => some .K | ['R'] => some .R | ['B'] => some .B | ['G'] => some .G
  | ['S'] => some .S | ['N'] => some .N | ['L'] => some .L | ['P'] => some .P
  | _ => none

/-- The structured move record returned by `unpack` (it carries a `side`
field, unlike `GenMove`). -/
inductive SidedMove
| move (side : Side) (fromSq toSq : Pos) (took : Option Piece) (promote : Bool)
| drop (side : Side) (piece : BasePiece) (at_ : Pos)
deriving DecidableEq, Repr

/-- Side field of a `SidedMove`. -/
def SidedMove.side : SidedMove → Side
| .move s _ _ _ _ => s
| .drop s _ _ => s

/-- Forgets the side field. -/
def SidedMove.strip : SidedMove → GenMove
| .move _ f t took pr => .move f t took pr
| .drop _ pc at_ => .drop pc at_

/-- `unpack` of the source.  Parse failures that would make the source
throw or produce garbage records are modelled by `none`; the source
hard-codes `side:"white"` in both branches. -/
def unpack (s : PackedMove) (bd : Board) : Option SidedMove :=
  if s.head? = some 'd' then
    match splitOnChar ',' ((splitOnChar ':' s).getD 1 []) with
    | pc :: r :: c :: _ =>
      (parseBase pc).bind (fun piece =>
        (parseFin9 r).bind (fun rp =>
          (parseFin9 c).map (fun cp =>
            .drop .white piece (rp, cp))))
    | _ => none
  else
    match splitOnChar ',' ((splitOnChar ':' s).getD 1 []) with
    | frS :: fcS :: trS :: tcS :: pS :: _ =>
      (parseFin9 frS).bind (fun fr =>
        (parseFin9 fcS).bind (fun fc =>
          (parseFin9 trS).bind (fun tr =>
            (parseFin9 tcS).map (fun tc =>
              let took := bd tr tc
              let promote := match parseNatD pS with
                | some n => n ≠ 0
                | none => false
              .move .white (fr, fc) (tr, tc) took promote))))
    | _ => none

/-! ## Evaluation -/

/-- The inner `mobility` helper of `evaluateBoard`: total pseudo-legal
destination count of one side. -/
def mobility (bd : Board) (s : Side) : Nat :=
  (squaresList.map (fun q =>
    match bd q.1 q.2 with
    | some p => if p.side = s then (legalMoves bd q.1 q.2).length else 0
    | none => 0)).sum

/-- The 3×3 neighbourhood scan order of the king-shelter loop of
`evaluateBoard` (the source includes the king's own square, `(0,0)`). -/
def shieldDeltas : List (Int × Int) :=
  [(-1,-1),(-1,0),(-1,1),(0,-1),(0,0),(0,1),(1,-1),(1,0),(1,1)]

/-- King-shelter count of one side (`shieldW` / `shieldB` accumulators of
`evaluateBoard`): 4 per same-side piece in the 3×3 box around each king of
that side. -/
def shieldCnt (bd : Board) (s : Side) : ℚ :=
  (squaresList.map (fun q =>
    match bd q.1 q.2 with
    | some p =>
      if p.side = s ∧ demoteMap p.type = .K then
        (((shieldDeltas.filterMap (fun d => mkPos? ((q.1 : Int) + d.1) ((q.2 : Int) + d.2))).filter
          (fun n => match bd n.1 n.2 with
            | some pq => decide (pq.side = s)
            | none => false)).length : ℚ) * 4
      else 0
    | none => 0)).sum

/-- `evaluateBoard` of the source: material + promotion bonus + rank bonus,
mobility difference, king shelter, and discounted hand reserve.  (The
source also accumulates `mobW`/`mobB` per-square but never reads them; the
used mobility term recomputes via the `mobility` helper.) -/
def evaluateBoard (bd : Board) (hB hW : Hand) : ℚ :=
  let pieceTerm : Pos → ℚ := fun q =>
    match bd q.1 q.2 with
    | none => 0
    | some p =>
      let base := demoteMap p.type
      let v0 := pieceValue base + (if isPromoted p.type then 30 else 0)
      let v := v0 + (if p.side = .white then ((8 : ℚ) - q.1.val) else (q.1.val : ℚ)) * (3/2)
      if p.side = .white then v else -v
  let handTerm : ℚ :=
    (dropOrder.map (fun t => ((hW t).getD 0 : ℚ) * pieceValue t * (9/10))).sum
    - (dropOrder.map (fun t => ((hB t).getD 0 : ℚ) * pieceValue t * (9/10))).sum
  (squaresList.map pieceTerm).sum
    + ((mobility bd .white : ℚ) - (mobility bd .black : ℚ)) * 2
    + (shieldCnt bd .white - shieldCnt bd .black) * (3/2)
    + handTerm

/-! ## Zobrist hashing -/

/-- One step of the seeded xorshift generator of the `Zobrist`
constructor, on 32-bit words (`x^=x<<13, x^=x>>>17, x^=x<<5`). -/
def xorshift (x : Nat) : Nat :=
  let a := x ^^^ ((x <<< 13) % 2 ^ 32)
  let b := a ^^^ (a >>> 17)
  b ^^^ ((b <<< 5) % 2 ^ 32)

/-- The `k`-th value drawn from the generator seeded with `0x9e3779b9`. -/
def zr (k : Nat) : Nat := xorshift^[k] 0x9e3779b9

/-- Index of a piece type in the `types` list of `Zobrist.pieceIndex`. -/
def pieceTypeIndex : PieceType → Nat
| .K => 0 | .R => 1 | .B => 2 | .G => 3 | .S => 4 | .N => 5 | .L => 6 | .P => 7
| .PR => 8 | .PB => 9 | .PS => 10 | .PN => 11 | .PL => 12 | .PP => 13

/-- `Zobrist.pieceIndex` of the source. -/
def pieceIndex (s : Side) (t : PieceType) : Nat :=
  (if s = .black then 0 else 1) * 14 + pieceTypeIndex t

/-- `zob.psq[r][c][pi]`: the table is filled row-major from the generator
stream, so entry `(r,c,pi)` is draw number `r*252 + c*28 + pi + 1`. -/
def zpsq (r c : Fin 9) (pi : Nat) : Nat := zr (r.val * 252 + c.val * 28 + pi + 1)

/-- `zob.hand[s][i][n]`: filled immediately after `psq` (2268 draws). -/
def zhand (s i n : Nat) : Nat := zr (2268 + s * 63 + i * 9 + n + 1)

/-- `zob.turn`: the final draw. -/
def zturn : Nat := zr 2395

/-- `keyBoard` of the source: XOR of per-square piece features, hand
counts capped at 8 (a negative count contributes no features), and the
side-to-move feature. -/
def keyBoard (bd : Board) (handB handW : Hand) (side : Side) : Nat :=
  let k1 := squaresList.foldl (fun k q =>
    match bd q.1 q.2 with
    | none => k
    | some p => k ^^^ zpsq q.1 q.2 (pieceIndex p.side p.type)) 0
  let k2 := dropOrder.enum.foldl (fun k it =>
    let i := it.1
    let t := it.2
    let nb := min 8 ((handB t).getD 0)
    let nw := min 8 ((handW t).getD 0)
    let ka := (List.range nb.toNat).foldl (fun k n => k ^^^ zhand 0 i n) k
    (List.range nw.toNat).foldl (fun k n => k ^^^ zhand 1 i n) ka) k1
  if side = .white then k2 ^^^ zturn else k2

/-! ## Transposition table, killers, history -/

/-- A transposition-table entry (`type TTEntry`).  `tt.age()` is never
called by `think` or `search`, so the tick is always 1. -/
structure TTEntry where
  key : Nat
  depth : Int
  flag : Nat
  score : ℚ
  best : Option PackedMove
  age : Nat
deriving DecidableEq

/-- The transposition table (`class TransTable`), as its lookup map. -/
abbrev TT := Nat → Option TTEntry

/-- `TransTable.set` (JS `Map.set` overwrites). -/
def TT.set (tt : TT) (e : TTEntry) : TT :=
  fun k => if k = e.key then some e else tt k

/-- Key of the history table; the source's string key
`` `${side}-${f.r}${f.c}-${t.r}${t.c}` `` is injective in these
components, so the tuple is used directly. -/
abbrev HistK := Side × Pos × Pos

/-- `histKey` of the source. -/
def histKey (side : Side) (f t : Pos) : HistK := (side, f, t)

/-- The mutable search-wide state threaded through `search`: the
transposition table, killer table, history table, and the read position in
the `Date.now()` stream. -/
structure SState where
  tt : TT
  killers : Nat → List PackedMove
  history : HistK → ℚ
  idx : Nat

/-- `addHistory` of the source. -/
def addHistory (h : HistK → ℚ) (side : Side) (f t : Pos) (depth : Int) : HistK → ℚ :=
  fun k =>
    if k = histKey side f t then h (histKey side f t) + ((depth * depth : Int) : ℚ)
    else h k

/-- `pushKiller` of the source. -/
def pushKiller (ks : Nat → List PackedMove) (ply : Nat) (pm : PackedMove) :
    Nat → List PackedMove :=
  let cur := ks ply
  let cur1 := if cur.contains pm then cur else pm :: cur
  let cur2 := if cur1.length > 2 then cur1.dropLast else cur1
  fun n => if n = ply then cur2 else ks n

/-- Heuristic ordering score of one move (the `scored` map inside
`orderMoves`). -/
def moveOrderScore (bd : Board) (side : Side) (hist : HistK → ℚ)
    (ks : List PackedMove) (pv ttBest : Option PackedMove) (m : GenMove) : ℚ :=
  let pm := pack m
  let s1 : ℚ := if pv = some pm then 1000000 else 0
  let s2 : ℚ := if ttBest = some pm then 500000 else 0
  let s3 : ℚ := match m with
    | .move f t took pr =>
      (match took with
       | some v => pieceValue (demoteMap v.type) * 100 + seeGain bd f t
       | none => 0)
      + (if pr then 200 else 0)
      + hist (histKey side f t)
    | .drop _ _ => 50
  let s4 : ℚ := if ks.contains pm then 10000 else 0
  s1 + s2 + s3 + s4

/-- `orderMoves` of the source (the JS `sort` with comparator
`(a,b) => b.s - a.s` is a stable descending sort). -/
def orderMoves (bd : Board) (side : Side) (list : List GenMove) (ply : Nat)
    (hist : HistK → ℚ) (killers : Nat → List PackedMove)
    (pv ttBest : Option PackedMove) : List GenMove :=
  let ks := killers ply
  let scored := list.map (fun m => (m, moveOrderScore bd side hist ks pv ttBest m))
  (scored.mergeSort (fun a b => decide (b.2 ≤ a.2))).map Prod.fst

/-! ## Quiescence search -/

/-- The capture-or-promotion filter of `quiescence`
(`m.kind==="move" && (m.took || m.promote)`). -/
def isCapPromo : GenMove → Bool
| .move _ _ took pr => took.isSome || pr
| .drop _ _ => false

/-- Static-exchange gain used by the quiescence cap's comparator. -/
def qGain (bd : Board) : GenMove → ℚ
| .move f t _ _ => seeGain bd f t
| .drop _ _ => 0

/-- Number of occupied squares. -/
def cntP (P : Option Piece → Bool) (bd : Board) : Nat :=
  ((Finset.univ : Finset Pos).filter (fun q => P (bd q.1 q.2) = true)).card

/-- Detects an unpromoted promotable piece. -/
def isUnpromProm : Option Piece → Bool
| some p => isPromotableType p.type
| none => false

/-- Termination measure for quiescence: each capture removes a piece from
the board, each non-capturing promotion removes an unpromoted promotable
piece (both components are at most 81). -/
def measureQ (bd : Board) : Nat :=
  100 * cntP Option.isSome bd + cntP isUnpromProm bd

/-- The move loop of `quiescence`, abstracted over the recursive call `q`:
negamax over the filtered list with beta cutoff and alpha raising. -/
def qloopF (q : Board → Hand → Hand → Side → ℚ → ℚ → Option ℚ)
    (bd : Board) (hB hW : Hand) (side : Side) (beta : ℚ) :
    List GenMove → ℚ → Option ℚ
| [], alpha => some alpha
| m :: rest, alpha =>
  let r := applyOneMove bd hB hW side m
  let scoreO : Option ℚ :=
    if r.winner.isSome then some 999999
    else (q r.bd r.hB r.hW side.other (-beta) (-alpha)).map (fun s => -s)
  scoreO.bind (fun score =>
    if score ≥ beta then some beta
    else qloopF q bd hB hW side beta rest (if score > alpha then score else alpha))

/-- `quiescence` of the source, with explicit fuel (`none` = fuel
exhausted).  `quiescence_terminates` shows fuel `measureQ bd + 1` always
suffices, which is the faithful rendering of the source's unbounded
recursion. -/
def quiescenceF : Nat → Board → Hand → Hand → Side → ℚ → ℚ → Option ℚ
| 0, _, _, _, _, _, _ => none
| fuel + 1, bd, hB, hW, side, alpha, beta =>
  let stand := evaluateBoard bd hB hW * (if side = .white then 1 else -1)
  if stand ≥ beta then some beta
  else
    let alpha1 := if stand > alpha then stand else alpha
    let moves := (enumerateMovesGeneric bd hB hW side).filter isCapPromo
    let moves2 :=
      if moves.length > 40 then
        (moves.mergeSort (fun a b => decide (qGain bd b ≤ qGain bd a))).take 40
      else moves
    qloopF (quiescenceF fuel) bd hB hW side beta moves2 alpha1

/-- Total quiescence: runs `quiescenceF` with the always-sufficient fuel
(see `quiescence_terminates`). -/
def quiescence (bd : Board) (hB hW : Hand) (side : Side) (alpha beta : ℚ) : ℚ :=
  (quiescenceF (measureQ bd + 1) bd hB hW side alpha beta).getD 0

/-! ## Main search -/

/-- Result record of `search` (`{score, move}`). -/
structure SResult where
  score : ℚ
  move : Option PackedMove
deriving DecidableEq

/-- The transposition-table probe of `search` (its lines
`const tte = tt.get(key); if(tte && tte.depth>=depth){...}`):
`some r` means `search` returns `r` immediately. -/
def probeTT (tte : Option TTEntry) (depth : Int) (alpha beta : ℚ) : Option SResult :=
  match tte with
  | none => none
  | some e =>
    if e.depth ≥ depth then
      if e.flag = 0 then some ⟨e.score, e.best⟩
      else if e.flag = 1 ∧ e.score ≤ alpha then some ⟨alpha, e.best⟩
      else if e.flag = 2 ∧ e.score ≥ beta then some ⟨beta, e.best⟩
      else none
    else none

/-- The in-check scan of `search`: some enemy piece's pseudo-legal
destinations include the king square. -/
def inCheckTest (bd : Board) (side : Side) (k : Pos) : Bool :=
  squaresList.any (fun q =>
    match bd q.1 q.2 with
    | some p =>
      if p.side = side then false
      else (legalMoves bd q.1 q.2).any (fun x => decide (x = k))
    | none => false)

/-- History update applied at a beta cutoff inside the move loop
(`if(m.kind==="move") addHistory(...)`): a no-op for drops. -/
def cutHistory (h : HistK → ℚ) (side : Side) (m : GenMove) (depth : Int) : HistK → ℚ :=
  match m with
  | .move f t _ _ => addHistory h side f t depth
  | .drop _ _ => h

/-- One iteration of the PVS move loop of `search`: `child` is the
depth − 1 recursive search, already specialized by the caller; the
accumulator carries `(a, bestMove, state, done, first)` where `done`
models the loop's `break` and `first` the `i === 0` full-window case. -/
def searchLoopStep
    (child : Board → Hand → Hand → Side → ℚ → ℚ → Nat → Nat → Option PackedMove → SState →
      SResult × SState)
    (bd : Board) (hB hW : Hand) (side : Side) (depth : Int) (beta : ℚ) (ply : Nat)
    (acc : ℚ × Option PackedMove × SState × Bool × Bool) (m : GenMove) :
    ℚ × Option PackedMove × SState × Bool × Bool :=
  let a := acc.1
  let bestMove := acc.2.1
  let stc := acc.2.2.1
  let done := acc.2.2.2.1
  let first := acc.2.2.2.2
  if done then acc
  else
    let pm := pack m
    let ar := applyOneMove bd hB hW side m
    let childKey := keyBoard ar.bd ar.hB ar.hW side.other
    let scSt : ℚ × SState :=
      if ar.winner.isSome then (999999 - (ply : ℚ), stc)
      else if first then
        let rs := child ar.bd ar.hB ar.hW side.other (-beta) (-a) childKey (ply + 1) none stc
        (-rs.1.score, rs.2)
      else
        let rs1 := child ar.bd ar.hB ar.hW side.other (-(a + 1)) (-a) childKey (ply + 1) none stc
        let t1 := -rs1.1.score
        if t1 > a ∧ t1 < beta then
          let rs2 := child ar.bd ar.hB ar.hW side.other (-beta) (-a) childKey (ply + 1)
            (some pm) rs1.2
          (-rs2.1.score, rs2.2)
        else (t1, rs1.2)
    let sc := scSt.1
    let st' := scSt.2
    if sc > a then
      if sc ≥ beta then
        (sc, some pm,
          { st' with
            history := cutHistory (st'.history) side m depth,
            killers := pushKiller st'.killers ply pm },
          true, false)
      else (sc, some pm, st', false, false)
    else (a, bestMove, st', false, false)

/-- `search` of the source: negamax with time abort, king-capture
terminals, TT probe, quiescence at depth ≤ 0, futility pruning, null-move
pruning (which passes the parent's `key` unchanged), PVS move loop, and a
final TT store. -/
def search (clock : Nat → Int) (start limitMs : Int)
    (bd : Board) (hB hW : Hand) (side : Side)
    (depth : Int) (alpha beta : ℚ) (key : Nat) (ply : Nat)
    (pv : Option PackedMove) (st0 : SState) : SResult × SState :=
  let now := clock st0.idx
  let st := { st0 with idx := st0.idx + 1 }
  if now - start > limitMs then (⟨alpha, none⟩, st)
  else
    match findKing bd side, findKing bd side.other with
    | none, _ => (⟨-999999 + (ply : ℚ), none⟩, st)
    | some _, none => (⟨999999 - (ply : ℚ), none⟩, st)
    | some myK, some _ =>
      let tte := st.tt key
      match probeTT tte depth alpha beta with
      | some r => (r, st)
      | none =>
        if h0 : depth ≤ 0 then
          (⟨quiescence bd hB hW side alpha beta, none⟩, st)
        else
          let evalScore := evaluateBoard bd hB hW * (if side = .white then 1 else -1)
          if depth ≤ 2 ∧ |beta - alpha| > 200 ∧ evalScore + 150 < alpha then
            (⟨evalScore, none⟩, st)
          else
            let inCheck := inCheckTest bd side myK
            let nullStep : Bool × SState :=
              if 3 ≤ depth ∧ inCheck = false then
                let rs := search clock start limitMs bd hB hW side.other
                  (depth - 3 - 1) (-beta) (-beta + 1) key (ply + 1) none st
                (decide (-rs.1.score ≥ beta), rs.2)
              else (false, st)
            if nullStep.1 then (⟨beta, none⟩, nullStep.2)
            else
              let st1 := nullStep.2
              let raw := enumerateMovesGeneric bd hB hW side
              if raw = [] then
                (⟨evaluateBoard bd hB hW * (if side = .white then 1 else -1) - 200, none⟩, st1)
              else
                let ordered := orderMoves bd side raw ply st1.history st1.killers pv
                  (tte.bind TTEntry.best)
                let fin := ordered.foldl
                  (searchLoopStep
                    (fun b hb hw s a2 b2 k2 p2 pv2 stc =>
                      search clock start limitMs b hb hw s (depth - 1) a2 b2 k2 p2 pv2 stc)
                    bd hB hW side depth beta ply)
                  (alpha, none, st1, false, true)
                let a := fin.1
                let bestMove := fin.2.1
                let st2 := fin.2.2.1
                let flag : Nat := if a ≤ alpha then 1 else if a ≥ beta then 2 else 0
                (⟨a, bestMove⟩, { st2 with tt := st2.tt.set ⟨key, depth, flag, a, bestMove, 1⟩ })
termination_by depth.toNat
decreasing_by
all_goals omega

/-! ## Iterative-deepening driver -/

/-- The per-iteration driver state of `think`. -/
structure ThinkSt where
  depth : Int
  aspiration : ℚ
  wAlpha : ℚ
  wBeta : ℚ
  best : PackedMove
  bestScore : ℚ

/-- The aspiration-window bookkeeping of `think`'s loop body, applied to
the score and move of one completed depth iteration: fail low / fail high
re-adjust the window and keep the depth; otherwise the best move is
accepted and the depth advances with a rescaled window. -/
def aspirationUpdate (score : ℚ) (move : Option PackedMove) (ts : ThinkSt) : ThinkSt :=
  if score ≤ ts.wAlpha then
    { ts with wAlpha := ts.wAlpha - ts.aspiration, wBeta := score + ts.aspiration }
  else if score ≥ ts.wBeta then
    { ts with wBeta := ts.wBeta + ts.aspiration, wAlpha := score - ts.aspiration }
  else
    let best' := match move with | some mv => mv | none => ts.best
    let bestScore' := match move with | some _ => score | none => ts.bestScore
    let asp' := max 30 ((Int.floor (ts.aspiration * (9 / 10 : ℚ)) : Int) : ℚ)
    { depth := ts.depth + 1, aspiration := asp', wAlpha := bestScore' - asp',
      wBeta := bestScore' + asp', best := best', bestScore := bestScore' }

/-- The `while (depth <= maxDepth)` loop of `think`.  On a real wall clock
the loop always exits through its budget checks; `fuel` bounds the number
of iterations in the model (running out of fuel returns the current best,
exactly like the budget break, and every theorem below holds for every
fuel). -/
def thinkLoop (clock : Nat → Int) (start timeLimit maxDepth : Int)
    (bd : Board) (hB hW : Hand) (side : Side) :
    Nat → ThinkSt → SState → PackedMove
| 0, ts, _ => ts.best
| fuel + 1, ts, st =>
  if ts.depth > maxDepth then ts.best
  else
    let remain := timeLimit - (clock st.idx - start)
    let st1 := { st with idx := st.idx + 1 }
    if remain < 100 then ts.best
    else
      let key := keyBoard bd hB hW side
      let rs := search clock start timeLimit bd hB hW side ts.depth ts.wAlpha ts.wBeta
        key 0 (some ts.best) st1
      let ts' := aspirationUpdate rs.1.score rs.1.move ts
      if rs.1.score ≤ ts.wAlpha ∨ rs.1.score ≥ ts.wBeta then
        thinkLoop clock start timeLimit maxDepth bd hB hW side fuel ts' rs.2
      else
        let stop := clock rs.2.idx - start > timeLimit
        let st2 := { rs.2 with idx := rs.2.idx + 1 }
        if stop then ts'.best
        else thinkLoop clock start timeLimit maxDepth bd hB hW side fuel ts' st2

/-- `think` of the source: returns `none` exactly when the root has no
generated moves, otherwise runs iterative deepening seeded with the first
generated root move as fallback.  `Date.now()` is modelled by the stream
`clock` (read 0 is the `start` stamp). -/
def think (clock : Nat → Int) (fuel : Nat) (bd : Board) (handBlack handWhite : Hand)
    (side : Side) (timeMs : Int) : Option PackedMove :=
  let start := clock 0
  let timeLimit := min timeMs 8000
  let maxDepth : Int := if timeLimit < 1500 then 5 else if timeLimit < 3000 then 6 else 7
  let rootMoves := enumerateMovesGeneric bd handBlack handWhite side
  match rootMoves with
  | [] => none
  | m0 :: _ =>
    let ts0 : ThinkSt := ⟨1, 50, -1000000000, 1000000000, pack m0, -1000000000⟩
    let st0 : SState := ⟨fun _ => none, fun _ => [], fun _ => 0, 1⟩
    some (thinkLoop clock start timeLimit maxDepth bd handBlack handWhite side fuel ts0 st0)

/-! ## Specification-side helper definitions and concrete fixtures -/

/-- Squares a move writes to (`applyOneMove` touches only these). -/
def touched : GenMove → List Pos
| .move f t _ _ => [f, t]
| .drop _ a => [a]

/-- Replaces every malformed (missing or negative) hand entry by zero. -/
def clampHand (h : Hand) : Hand :=
  fun t => some (max 0 ((h t).getD 0))

/-- The promotion-flag policy of the generator, read off the
`must` / `canBasic` branches of `enumerateMovesGeneric`. -/
def promotePolicy (side : Side) (pt : PieceType) (fromR toR : Fin 9) (pr : Bool) : Prop :=
  if (isPromotableType pt && isForcedPromotion side pt toR) = true then pr = true
  else if (isPromotableType pt && involvesEnemyZone side fromR toR) = true then True
  else pr = false

/-- Empty hand (all entries missing). -/
def hEmpty : Hand := fun _ => none

/-- Empty board. -/
def bdEmpty : Board := fun _ _ => none

/-- Hand with a negative pawn entry. -/
def hNegP : Hand := fun t => match t with | .P => some (-1) | _ => none

/-- Hand with pawn count −5. -/
def hNegP5 : Hand := fun t => match t with | .P => some (-5) | _ => none

/-- Hand holding one pawn. -/
def hOneP : Hand := fun t => match t with | .P => some 1 | _ => none

/-- Board with only the two kings. -/
def bdTwoKings : Board := fun r c =>
  if r.val = 0 ∧ c.val = 4 then some ⟨.white, .K⟩
  else if r.val = 8 ∧ c.val = 4 then some ⟨.black, .K⟩
  else none

/-- Board for the `applyOneMove` witness: a black pawn about to capture
the white king. -/
def bdKCap : Board := fun r c =>
  if r.val = 2 ∧ c.val = 4 then some ⟨.black, .P⟩
  else if r.val = 3 ∧ c.val = 4 then some ⟨.white, .K⟩
  else none

/-- King-capturing pawn move on `bdKCap`. -/
def mKCap : GenMove := .move (2, 4) (3, 4) (some ⟨.white, .K⟩) false

/-- Board for the hand-clamping counterexample: a black pawn capturing a
white pawn. -/
def bdCap : Board := fun r c =>
  if r.val = 4 ∧ c.val = 4 then some ⟨.black, .P⟩
  else if r.val = 5 ∧ c.val = 4 then some ⟨.white, .P⟩
  else none

/-- Pawn-capturing move on `bdCap`. -/
def mCap : GenMove := .move (4, 4) (5, 4) (some ⟨.white, .P⟩) false

/-- Driver state at the start of the first iteration of `think`
(`depth 1`, aspiration 50, full window). -/
def tsInit : ThinkSt := ⟨1, 50, -1000000000, 1000000000, ['x'], -1000000000⟩

/-- A stored exact transposition-table entry at key 0 with depth 5. -/
def tteC4 : TTEntry := ⟨0, 5, 0, 42, none, 1⟩

/-- Search state holding only `tteC4`. -/
def stC4 : SState := ⟨fun k => if k = 0 then some tteC4 else none, fun _ => [], fun _ => 0, 1⟩

/-- A frozen clock. -/
def clock0 : Nat → Int := fun _ => 0

/-- A clock whose budget expires right after the first loop-top check. -/
def clockTO : Nat → Int := fun n => if n ≤ 1 then 0 else 1000000000

/-- A clock whose budget is already spent at the first loop-top check of
`thinkLoop` (only the `start` stamp reads 0). -/
def clockHard : Nat → Int := fun n => if n = 0 then 0 else 1000000000

/-- Board with a single white pawn (think fixture). -/
def bdOneWP : Board := fun r c =>
  if r.val = 4 ∧ c.val = 4 then some ⟨.white, .P⟩ else none

/-- Board with a single black pawn one step from the farthest rank
(forced-promotion fixture). -/
def bdForced : Board := fun r c =>
  if r.val = 7 ∧ c.val = 4 then some ⟨.black, .P⟩ else none

/-- Board with a single white promoted pawn on file 4 (two-pawn-rule
counterexample fixture). -/
def bdTokin : Board := fun r c =>
  if r.val = 4 ∧ c.val = 4 then some ⟨.white, .PP⟩ else none

/-- A packed drop token. -/
def tokDrop : PackedMove := ['d', ':', 'P', ',', '3', ',', '4']

/-! ## Helper lemmas -/

theorem setP_ne (bd : Board) (p q : Pos) (v : Option Piece) (h : q ≠ p) :
    setP bd p v q.1 q.2 = bd q.1 q.2 := by
  have hc : ¬(q.1 = p.1 ∧ q.2 = p.2) := fun hc => h (Prod.ext hc.1 hc.2)
  simp [setP, hc]

theorem foldl_pres {α β : Type} (P : β → Prop) (step : β → α → β) :
    ∀ (l : List α) (acc : β), P acc →
      (∀ acc a, a ∈ l → P acc → P (step acc a)) → P (l.foldl step acc) := by
  intro l
  induction l with
  | nil => intro acc h _; exact h
  | cons a l ih =>
    intro acc h hstep
    exact ih _ (hstep _ _ (by simp) h) (fun acc b hb hP => hstep _ _ (by simp [hb]) hP)

/-! ## C8: applyOneMove winner signal and frame -/

/-- C8: `applyOneMove` is a pure function of its inputs (the source clones
the board and both hands before writing); its winner signal is `some`
exactly for a board move whose recorded capture demotes to the king, in
which case it equals the moving side and neither returned hand changes
(the king is never added to a hand); and the returned board agrees with
the input board away from the squares the move touches. -/
theorem applyOneMove_winner_frame (bd : Board) (hB hW : Hand) (side : Side) (m : GenMove) :
    ((applyOneMove bd hB hW side m).winner.isSome = true ↔
      ∃ f t v pr, m = GenMove.move f t (some v) pr ∧ demoteMap v.type = .K)
    ∧ ((applyOneMove bd hB hW side m).winner.isSome = true →
        (applyOneMove bd hB hW side m).winner = some side ∧
        (applyOneMove bd hB hW side m).hB = hB ∧
        (applyOneMove bd hB hW side m).hW = hW)
    ∧ (∀ q : Pos, q ∉ touched m →
        (applyOneMove bd hB hW side m).bd q.1 q.2 = bd q.1 q.2) := by
  rcases m with ⟨f, t, took, pr⟩ | ⟨pc, a⟩
  · rcases took with _ | v
    · refine ⟨by simp [applyOneMove], by simp [applyOneMove], ?_⟩
      intro q hq
      simp only [touched, List.mem_cons, List.not_mem_nil, or_false, not_or] at hq
      simp only [applyOneMove, cloneBoard, id]
      rw [setP_ne _ _ _ _ hq.1, setP_ne _ _ _ _ hq.2]
    · by_cases hk : demoteMap v.type = .K
      · refine ⟨?_, ?_, ?_⟩
        · exact ⟨fun _ => ⟨f, t, v, pr, rfl, hk⟩, fun _ => by simp [applyOneMove, hk]⟩
        · intro _
          refine ⟨by simp [applyOneMove, hk], ?_, ?_⟩ <;>
            simp [applyOneMove, hk]
        · intro q hq
          simp only [touched, List.mem_cons, List.not_mem_nil, or_false, not_or] at hq
          simp only [applyOneMove, cloneBoard, id]
          rw [setP_ne _ _ _ _ hq.1, setP_ne _ _ _ _ hq.2]
      · refine ⟨?_, ?_, ?_⟩
        · simp only [applyOneMove, hk]
          constructor
          · intro hco; simp at hco
          · rintro ⟨f', t', v', pr', hm, hk'⟩
            obtain ⟨rfl, rfl, htk, rfl⟩ := GenMove.move.inj hm
            obtain rfl : v = v' := Option.some.inj htk
            exact absurd hk' hk
        · intro hco
          simp [applyOneMove, hk] at hco
        · intro q hq
          simp only [touched, List.mem_cons, List.not_mem_nil, or_false, not_or] at hq
          simp only [applyOneMove, cloneBoard, id]
          rw [setP_ne _ _ _ _ hq.1, setP_ne _ _ _ _ hq.2]
  · refine ⟨by simp [applyOneMove], by simp [applyOneMove], ?_⟩
    intro q hq
    simp only [touched, List.mem_cons, List.not_mem_nil, or_false] at hq
    simp only [applyOneMove, cloneBoard, id]
    rw [setP_ne _ _ _ _ hq]

/-- Witness for C8 at a concrete king capture. -/
theorem applyOneMove_winner_frame_witness :
    (applyOneMove bdKCap hEmpty hEmpty .black mKCap).winner = some .black ∧
    (applyOneMove bdKCap hEmpty hEmpty .black mKCap).hB = hEmpty ∧
    (applyOneMove bdKCap hEmpty hEmpty .black mKCap).hW = hEmpty ∧
    (applyOneMove bdKCap hEmpty hEmpty .black mKCap).bd 0 0 = bdKCap 0 0 := by
  have h := applyOneMove_winner_frame bdKCap hEmpty hEmpty .black mKCap
  have hw := h.2.1 (by decide)
  exact ⟨hw.1, hw.2.1, hw.2.2, h.2.2 (0, 0) (by decide)⟩

/-! ## C10: unpack always reports side white -/

/-- C10: whatever token `unpack` successfully parses, and whatever board it
is given, the returned move record carries side `"white"` — the mover's
side is not encoded in the token. -/
theorem unpack_side_is_white (s : PackedMove) (bd : Board) (r : SidedMove)
    (h : unpack s bd = some r) : r.side = .white := by
  unfold unpack at h
  split at h
  · split at h
    · simp only [Option.bind_eq_some, Option.map_eq_some'] at h
      obtain ⟨piece, _, rp, _, cp, _, hr⟩ := h
      subst hr
      rfl
    · exact absurd h (by simp)
  · split at h
    · simp only [Option.bind_eq_some, Option.map_eq_some'] at h
      obtain ⟨fr, _, fc, _, tr, _, tc, _, hr⟩ := h
      subst hr
      rfl
    · exact absurd h (by simp)

/-- Witness for C10 at a concrete drop token. -/
theorem unpack_side_is_white_witness :
    unpack tokDrop bdEmpty = some (SidedMove.drop .white .P (3, 4)) ∧
    (SidedMove.drop .white .P (3, 4)).side = .white :=
  ⟨by decide, unpack_side_is_white tokDrop bdEmpty _ (by decide)⟩

/-! ## C6: aspiration-window bookkeeping of the driver -/

/-- C6 (amended): when a depth iteration's score falls at or below the
window's lower bound the depth is kept and the window becomes
`[wAlpha − aspiration, score + aspiration]`; when it is at or above the
upper bound the depth is kept and the window becomes
`[score − aspiration, wBeta + aspiration]`; the depth advances exactly on
a score strictly inside the window; and on a failing score `think`'s loop
re-runs with the adjusted state produced by `aspirationUpdate` (the new
window need not contain the previous one). -/
theorem aspiration_window_update (score : ℚ) (move : Option PackedMove) (ts : ThinkSt) :
    (score ≤ ts.wAlpha →
      (aspirationUpdate score move ts).depth = ts.depth ∧
      (aspirationUpdate score move ts).wAlpha = ts.wAlpha - ts.aspiration ∧
      (aspirationUpdate score move ts).wBeta = score + ts.aspiration)
    ∧ (ts.wAlpha < score → ts.wBeta ≤ score →
      (aspirationUpdate score move ts).depth = ts.depth ∧
      (aspirationUpdate score move ts).wBeta = ts.wBeta + ts.aspiration ∧
      (aspirationUpdate score move ts).wAlpha = score - ts.aspiration)
    ∧ (ts.wAlpha < score → score < ts.wBeta →
      (aspirationUpdate score move ts).depth = ts.depth + 1)
    ∧ (∀ (clock : Nat → Int) (start timeLimit maxDepth : Int) bd hB hW side fuel st st',
        search clock start timeLimit bd hB hW side ts.depth ts.wAlpha ts.wBeta
            (keyBoard bd hB hW side) 0 (some ts.best) { st with idx := st.idx + 1 }
          = (⟨score, move⟩, st') →
        ¬ts.depth > maxDepth →
        ¬timeLimit - (clock st.idx - start) < 100 →
        (score ≤ ts.wAlpha ∨ ts.wBeta ≤ score) →
        thinkLoop clock start timeLimit maxDepth bd hB hW side (fuel + 1) ts st =
          thinkLoop clock start timeLimit maxDepth bd hB hW side fuel
            (aspirationUpdate score move ts) st') := by
  refine ⟨?_, ?_, ?_, ?_⟩
  · intro h
    simp [aspirationUpdate, if_pos h]
  · intro h1 h2
    unfold aspirationUpdate
    rw [if_neg (by linarith), if_pos (by linarith)]
    exact ⟨rfl, rfl, rfl⟩
  · intro h1 h2
    unfold aspirationUpdate
    rw [if_neg (by linarith), if_neg (by linarith)]
  · intro clock start timeLimit maxDepth bd hB hW side fuel st st' hs h1 h2 h3
    rw [thinkLoop, if_neg h1]
    simp only []
    rw [if_neg h2, hs]
    have hcond : (score ≤ ts.wAlpha ∨ score ≥ ts.wBeta) := by
      rcases h3 with h | h
      · exact Or.inl h
      · exact Or.inr h
    rw [if_pos hcond]

/-- Witness for C6 at a concrete fail-low update. -/
theorem aspiration_window_update_witness :
    (aspirationUpdate (-1000000000) none tsInit).depth = tsInit.depth ∧
    (aspirationUpdate (-1000000000) none tsInit).wBeta = -1000000000 + tsInit.aspiration := by
  have h := (aspiration_window_update (-1000000000) none tsInit).1 (by norm_num [tsInit])
  exact ⟨h.1, h.2.2⟩

/-- Counterexample for C6 as stated: on the reachable fail-low update from
the initial window `[−10⁹, 10⁹]` with aspiration 50 and score `−10⁹`, the
adjusted window does not contain the previous one (its upper bound drops
to `−10⁹ + 50`). -/
theorem aspiration_window_not_containing :
    ((-1000000000 : ℚ) ≤ tsInit.wAlpha) ∧
    ¬(∀ x : ℚ, tsInit.wAlpha ≤ x ∧ x ≤ tsInit.wBeta →
        (aspirationUpdate (-1000000000) none tsInit).wAlpha ≤ x ∧
        x ≤ (aspirationUpdate (-1000000000) none tsInit).wBeta) := by
  constructor
  · norm_num [tsInit]
  · intro h
    have h2 := (h 1000000000 (by norm_num [tsInit])).2
    norm_num [aspirationUpdate, tsInit] at h2

/-! ## C4: transposition-table probe policy -/

/-- C4: the TT probe of `search` uses a found entry only when its stored
depth is at least the requested depth; under that condition an exact entry
returns its stored score directly, an upper-bound entry (flag 1) returns
immediately exactly when its score is at or below alpha, a lower-bound
entry (flag 2) exactly when its score is at or above beta; `search`
returns the probe's result unchanged whenever the probe hits (and
otherwise continues into the node, e.g. straight into quiescence at
depth ≤ 0). -/
theorem tt_probe_policy :
    (∀ (depth : Int) (α β : ℚ), probeTT none depth α β = none)
    ∧ (∀ (e : TTEntry) (depth : Int) (α β : ℚ), e.depth < depth →
        probeTT (some e) depth α β = none)
    ∧ (∀ (e : TTEntry) (depth : Int) (α β : ℚ), depth ≤ e.depth → e.flag = 0 →
        probeTT (some e) depth α β = some ⟨e.score, e.best⟩)
    ∧ (∀ (e : TTEntry) (depth : Int) (α β : ℚ), depth ≤ e.depth → e.flag = 1 →
        probeTT (some e) depth α β = if e.score ≤ α then some ⟨α, e.best⟩ else none)
    ∧ (∀ (e : TTEntry) (depth : Int) (α β : ℚ), depth ≤ e.depth → e.flag = 2 →
        probeTT (some e) depth α β = if β ≤ e.score then some ⟨β, e.best⟩ else none)
    ∧ (∀ (clock : Nat → Int) (start limitMs : Int) bd hB hW side (depth : Int)
        (α β : ℚ) key ply pv st (r : SResult),
        ¬clock st.idx - start > limitMs →
        (findKing bd side).isSome = true →
        (findKing bd side.other).isSome = true →
        probeTT (st.tt key) depth α β = some r →
        search clock start limitMs bd hB hW side depth α β key ply pv st
          = (r, { st with idx := st.idx + 1 }))
    ∧ (∀ (clock : Nat → Int) (start limitMs : Int) bd hB hW side (depth : Int)
        (α β : ℚ) key ply pv st,
        ¬clock st.idx - start > limitMs →
        (findKing bd side).isSome = true →
        (findKing bd side.other).isSome = true →
        probeTT (st.tt key) depth α β = none →
        depth ≤ 0 →
        search clock start limitMs bd hB hW side depth α β key ply pv st
          = (⟨quiescence bd hB hW side α β, none⟩, { st with idx := st.idx + 1 })) := by
  refine ⟨fun _ _ _ => rfl, ?_, ?_, ?_, ?_, ?_, ?_⟩
  · intro e depth α β h
    simp [probeTT, not_le.mpr h]
  · intro e depth α β h hf
    simp [probeTT, h, hf]
  · intro e depth α β h hf
    rw [probeTT, if_pos (show e.depth ≥ depth from h), if_neg (show ¬e.flag = 0 by omega)]
    by_cases hs : e.score ≤ α
    · rw [if_pos (show e.flag = 1 ∧ e.score ≤ α from ⟨hf, hs⟩), if_pos hs]
    · rw [if_neg (show ¬(e.flag = 1 ∧ e.score ≤ α) from fun hc => hs hc.2),
        if_neg (show ¬(e.flag = 2 ∧ e.score ≥ β) from fun hc => by
          have := hc.1; omega),
        if_neg hs]
  · intro e depth α β h hf
    rw [probeTT, if_pos (show e.depth ≥ depth from h), if_neg (show ¬e.flag = 0 by omega),
      if_neg (show ¬(e.flag = 1 ∧ e.score ≤ α) from fun hc => by
        have := hc.1; omega)]
    by_cases hs : β ≤ e.score
    · rw [if_pos (show e.flag = 2 ∧ e.score ≥ β from ⟨hf, hs⟩), if_pos hs]
    · rw [if_neg (show ¬(e.flag = 2 ∧ e.score ≥ β) from fun hc => hs hc.2), if_neg hs]
  · intro clock start limitMs bd hB hW side depth α β key ply pv st r h1 h2 h3 hp
    obtain ⟨k1, hk1⟩ := Option.isSome_iff_exists.mp h2
    obtain ⟨k2, hk2⟩ := Option.isSome_iff_exists.mp h3
    rw [search.eq_def, if_neg h1, hk1, hk2]
    dsimp only
    rw [hp]
  · intro clock start limitMs bd hB hW side depth α β key ply pv st h1 h2 h3 hp hd
    obtain ⟨k1, hk1⟩ := Option.isSome_iff_exists.mp h2
    obtain ⟨k2, hk2⟩ := Option.isSome_iff_exists.mp h3
    rw [search.eq_def, if_neg h1, hk1, hk2]
    dsimp only
    rw [hp]
    dsimp only
    rw [dif_pos hd]

/-- Witness for C4: a stored exact entry of depth 5 answers a depth-3
probe directly from `search`. -/
theorem tt_probe_policy_witness :
    search clock0 0 1000 bdTwoKings hEmpty hEmpty .white 3 0 100 0 7 none stC4
      = (⟨42, none⟩, { stC4 with idx := stC4.idx + 1 }) := by
  have h := tt_probe_policy
  exact h.2.2.2.2.2.1 clock0 0 1000 bdTwoKings hEmpty hEmpty .white 3 0 100 0 7 none stC4
    ⟨42, none⟩ (by decide) (by decide) (by decide) (by decide)

/-! ## C9: which operations clamp malformed hand counts -/

/-- C9 (amended): move generation and position hashing treat negative or
missing hand entries as zero — their results on any hand equal their
results on the clamped hand, and no error is raised; but move application
and position evaluation do not satisfy this equivalence (a capture adds
one to a negative count instead of clamping it, and evaluation multiplies
the raw negative count into the score). -/
theorem hand_clamping_scope :
    (∀ (bd : Board) (hB hW : Hand) (side : Side),
      enumerateMovesGeneric bd (clampHand hB) (clampHand hW) side
        = enumerateMovesGeneric bd hB hW side)
    ∧ (∀ (bd : Board) (hB hW : Hand) (side : Side),
      keyBoard bd (clampHand hB) (clampHand hW) side = keyBoard bd hB hW side)
    ∧ evaluateBoard bdEmpty hEmpty hNegP ≠ evaluateBoard bdEmpty hEmpty (clampHand hNegP)
    ∧ (applyOneMove bdCap hNegP5 hEmpty .black mCap).hB .P
        ≠ (applyOneMove bdCap (clampHand hNegP5) hEmpty .black mCap).hB .P := by
  refine ⟨?_, ?_, ?_, by decide⟩
  · intro bd hB hW side
    unfold enumerateMovesGeneric
    have hsw : (if side = Side.black then clampHand hB else clampHand hW)
        = clampHand (if side = Side.black then hB else hW) := by
      split <;> rfl
    rw [hsw]
    have hg : ∀ (t : BasePiece),
        ((clampHand (if side = Side.black then hB else hW) t).getD 0 ≤ 0)
          = (((if side = Side.black then hB else hW) t).getD 0 ≤ 0) := by
      intro t
      simp only [clampHand, Option.getD_some]
      exact propext ⟨fun hc => by omega, fun hc => by omega⟩
    simp only [hg]
  · intro bd hB hW side
    unfold keyBoard
    have hm : ∀ (h : Hand) (t : BasePiece),
        (min 8 ((clampHand h t).getD 0)).toNat = (min 8 ((h t).getD 0)).toNat := by
      intro h t
      simp only [clampHand, Option.getD_some]
      omega
    simp only [hm]
  · have key : evaluateBoard bdEmpty hEmpty hNegP - evaluateBoard bdEmpty hEmpty (clampHand hNegP)
        = (dropOrder.map (fun t => ((hNegP t).getD 0 : ℚ) * pieceValue t * (9/10))).sum
          - (dropOrder.map (fun t => ((clampHand hNegP t).getD 0 : ℚ) * pieceValue t * (9/10))).sum := by
      simp only [evaluateBoard]
      ring
    have h90 : (dropOrder.map (fun t => ((hNegP t).getD 0 : ℚ) * pieceValue t * (9/10))).sum
          - (dropOrder.map (fun t => ((clampHand hNegP t).getD 0 : ℚ) * pieceValue t * (9/10))).sum
        = -90 := by
      norm_num [dropOrder, hNegP, clampHand, pieceValue]
    intro h
    rw [h, sub_self] at key
    rw [h90] at key
    norm_num at key

/-- Counterexample for C9 as stated: applying a pawn capture with a hand
whose pawn entry is −5 yields a pawn entry of −4, while on the clamped
hand it yields 1 — move application does not behave as if malformed
entries were zero. -/
theorem hand_clamping_cex :
    (applyOneMove bdCap hNegP5 hEmpty .black mCap).hB .P = some (-4) ∧
    (applyOneMove bdCap (clampHand hNegP5) hEmpty .black mCap).hB .P = some 1 := by
  constructor <;> decide

/-! ## Membership characterization of the move generator -/

theorem mem_squaresList (q : Pos) : q ∈ squaresList := by
  rcases q with ⟨r, c⟩
  simp only [squaresList, List.mem_flatMap, List.mem_map]
  exact ⟨r, List.mem_finRange r, c, List.mem_finRange c, rfl⟩

theorem rayWalk_occ (bd : Board) (side : Side) (dr dc : Int) :
    ∀ (fuel : Nat) (r c : Int) (q : Pos), q ∈ rayWalk bd side dr dc fuel r c →
      bd q.1 q.2 = none ∨ ∃ occ, bd q.1 q.2 = some occ ∧ occ.side ≠ side := by
  intro fuel
  induction fuel with
  | zero => intro r c q h; simp [rayWalk] at h
  | succ n ih =>
    intro r c q h
    rw [rayWalk] at h
    rcases hm : mkPos? r c with _ | p
    · simp [hm] at h
    · simp only [hm] at h
      rcases hb : bd p.1 p.2 with _ | occ
      · simp only [hb] at h
        rcases List.mem_cons.mp h with rfl | h2
        · exact Or.inl hb
        · exact ih _ _ _ h2
      · simp only [hb] at h
        by_cases hocc : occ.side ≠ side
        · rw [if_pos hocc] at h
          rcases List.mem_singleton.mp h with rfl
          exact Or.inr ⟨occ, hb, hocc⟩
        · rw [if_neg hocc] at h
          simp at h

theorem stepMoves_occ (bd : Board) (r c : Fin 9) (deltas : List (Int × Int)) (side : Side)
    (q : Pos) (h : q ∈ stepMoves bd r c deltas side) :
    bd q.1 q.2 = none ∨ ∃ occ, bd q.1 q.2 = some occ ∧ occ.side ≠ side := by
  simp only [stepMoves, List.mem_filterMap] at h
  obtain ⟨d, _, hd⟩ := h
  rcases hm : mkPos? ((r : Int) + d.1) ((c : Int) + d.2) with _ | p
  · simp [hm] at hd
  · simp only [hm] at hd
    rcases hb : bd p.1 p.2 with _ | occ
    · simp only [hb] at hd
      obtain rfl := Option.some.inj hd
      exact Or.inl hb
    · simp only [hb] at hd
      by_cases hocc : occ.side ≠ side
      · rw [if_pos hocc] at hd
        obtain rfl := Option.some.inj hd
        exact Or.inr ⟨occ, hb, hocc⟩
      · rw [if_neg hocc] at hd; simp at hd

theorem rayMoves_occ (bd : Board) (r c : Fin 9) (deltas : List (Int × Int)) (side : Side)
    (q : Pos) (h : q ∈ rayMoves bd r c deltas side) :
    bd q.1 q.2 = none ∨ ∃ occ, bd q.1 q.2 = some occ ∧ occ.side ≠ side := by
  simp only [rayMoves, List.mem_flatMap] at h
  obtain ⟨d, _, hd⟩ := h
  exact rayWalk_occ bd side d.1 d.2 _ _ _ q hd

theorem legalMoves_occ (bd : Board) (r c : Fin 9) (p : Piece) (hp : bd r c = some p)
    (q : Pos) (h : q ∈ legalMoves bd r c) :
    bd q.1 q.2 = none ∨ ∃ occ, bd q.1 q.2 = some occ ∧ occ.side ≠ p.side := by
  unfold legalMoves at h
  rw [hp] at h
  dsimp only at h
  generalize p.type = pt at h
  cases pt <;> dsimp only at h <;>
    first
    | exact stepMoves_occ _ _ _ _ _ _ h
    | exact rayMoves_occ _ _ _ _ _ _ h
    | (rcases List.mem_append.mp h with h2 | h2
       · exact rayMoves_occ _ _ _ _ _ _ h2
       · exact stepMoves_occ _ _ _ _ _ _ h2)

theorem mem_boardMovesFrom (bd : Board) (side : Side) (q f t : Pos)
    (took : Option Piece) (pr : Bool) :
    GenMove.move f t took pr ∈ boardMovesFrom bd side q ↔
    q = f ∧ ∃ p, bd f.1 f.2 = some p ∧ p.side = side ∧ t ∈ legalMoves bd f.1 f.2 ∧
      took = bd t.1 t.2 ∧ promotePolicy side p.type f.1 t.1 pr := by
  unfold boardMovesFrom
  constructor
  · intro hmem
    rcases hbq : bd q.1 q.2 with _ | p
    · rw [hbq] at hmem; simp at hmem
    · rw [hbq] at hmem
      simp only [] at hmem
      by_cases hs : p.side = side
      · rw [if_pos hs] at hmem
        simp only [List.mem_flatMap] at hmem
        obtain ⟨t', ht', hin⟩ := hmem
        by_cases hmust : (isPromotableType p.type && isForcedPromotion side p.type t'.1) = true
        · rw [if_pos hmust] at hin
          obtain ⟨rfl, rfl, htk, hpr⟩ := GenMove.move.inj (List.mem_singleton.mp hin)
          refine ⟨rfl, p, hbq, hs, ht', htk, ?_⟩
          rw [promotePolicy, if_pos hmust]
          exact hpr
        · rw [if_neg hmust] at hin
          by_cases hcan : (isPromotableType p.type && involvesEnemyZone side q.1 t'.1) = true
          · rw [if_pos hcan] at hin
            rcases List.mem_cons.mp hin with heq | hin2
            · obtain ⟨rfl, rfl, htk, hpr⟩ := GenMove.move.inj heq
              refine ⟨rfl, p, hbq, hs, ht', htk, ?_⟩
              rw [promotePolicy, if_neg hmust, if_pos hcan]
              trivial
            · obtain ⟨rfl, rfl, htk, hpr⟩ := GenMove.move.inj (List.mem_singleton.mp hin2)
              refine ⟨rfl, p, hbq, hs, ht', htk, ?_⟩
              rw [promotePolicy, if_neg hmust, if_pos hcan]
              trivial
          · rw [if_neg hcan] at hin
            obtain ⟨rfl, rfl, htk, hpr⟩ := GenMove.move.inj (List.mem_singleton.mp hin)
            refine ⟨rfl, p, hbq, hs, ht', htk, ?_⟩
            rw [promotePolicy, if_neg hmust, if_neg hcan]
            exact hpr
      · rw [if_neg hs] at hmem; simp at hmem
  · rintro ⟨rfl, p, hp, hs, ht, htook, hpol⟩
    rw [hp]
    simp only [if_pos hs, List.mem_flatMap]
    refine ⟨t, ht, ?_⟩
    rw [promotePolicy] at hpol
    by_cases hmust : (isPromotableType p.type && isForcedPromotion side p.type t.1) = true
    · rw [if_pos hmust] at hpol
      subst hpol
      rw [if_pos hmust, htook]
      exact List.mem_singleton.mpr rfl
    · rw [if_neg hmust] at hpol
      rw [if_neg hmust]
      by_cases hcan : (isPromotableType p.type && involvesEnemyZone side q.1 t.1) = true
      · rw [if_pos hcan]
        subst htook
        cases pr
        · exact List.mem_cons.mpr (Or.inr (List.mem_singleton.mpr rfl))
        · exact List.mem_cons.mpr (Or.inl rfl)
      · rw [if_neg hcan] at hpol
        subst hpol
        rw [if_neg hcan, htook]
        exact List.mem_singleton.mpr rfl

theorem drop_not_mem_boardMovesFrom (bd : Board) (side : Side) (q : Pos)
    (pc : BasePiece) (a : Pos) : GenMove.drop pc a ∉ boardMovesFrom bd side q := by
  intro h
  unfold boardMovesFrom at h
  rcases hbq : bd q.1 q.2 with _ | p
  · simp [hbq] at h
  · simp only [hbq] at h
    by_cases hs : p.side = side
    · rw [if_pos hs] at h
      simp only [List.mem_flatMap] at h
      obtain ⟨t', _, hin⟩ := h
      split at hin
      · simp at hin
      · split at hin <;> simp at hin
    · rw [if_neg hs] at h; simp at h

/-- C-series workhorse: a board move is generated exactly when its origin
holds a piece of the moving side, its destination is one of that piece's
pseudo-legal destinations, its recorded capture is the destination's
occupant, and its promotion flag obeys the generator's promotion policy. -/
theorem mem_enumerate_move (bd : Board) (hB hW : Hand) (side : Side) (f t : Pos)
    (took : Option Piece) (pr : Bool) :
    GenMove.move f t took pr ∈ enumerateMovesGeneric bd hB hW side ↔
    ∃ p, bd f.1 f.2 = some p ∧ p.side = side ∧ t ∈ legalMoves bd f.1 f.2 ∧
      took = bd t.1 t.2 ∧ promotePolicy side p.type f.1 t.1 pr := by
  unfold enumerateMovesGeneric
  simp only [List.mem_append, List.mem_flatMap]
  constructor
  · rintro (⟨q, _, hmem⟩ | ⟨tk, htk, hdrop⟩)
    · exact ((mem_boardMovesFrom bd side q f t took pr).mp hmem).2
    · exfalso
      by_cases hg : ((if side = Side.black then hB else hW) tk).getD 0 ≤ 0
      · rw [if_pos hg] at hdrop; simp at hdrop
      · rw [if_neg hg] at hdrop
        simp only [List.mem_filterMap] at hdrop
        obtain ⟨q', _, heq⟩ := hdrop
        split at heq <;> simp_all
  · intro hr
    exact Or.inl ⟨f, mem_squaresList f,
      (mem_boardMovesFrom bd side f f t took pr).mpr ⟨rfl, hr⟩⟩

/-- Drop counterpart: a drop is generated exactly for a droppable kind with
a positive hand count onto a square `canDrop` accepts. -/
theorem mem_enumerate_drop (bd : Board) (hB hW : Hand) (side : Side)
    (pc : BasePiece) (q : Pos) :
    GenMove.drop pc q ∈ enumerateMovesGeneric bd hB hW side ↔
    pc ∈ dropOrder ∧ 0 < ((if side = Side.black then hB else hW) pc).getD 0 ∧
      canDrop bd side pc q.1 q.2 = true := by
  unfold enumerateMovesGeneric
  simp only [List.mem_append, List.mem_flatMap]
  constructor
  · rintro (⟨q', _, hmem⟩ | ⟨tk, htk, hdrop⟩)
    · exact absurd hmem (drop_not_mem_boardMovesFrom bd side q' pc q)
    · by_cases hg : ((if side = Side.black then hB else hW) tk).getD 0 ≤ 0
      · rw [if_pos hg] at hdrop; simp at hdrop
      · rw [if_neg hg] at hdrop
        simp only [List.mem_filterMap] at hdrop
        obtain ⟨q'', _, heq⟩ := hdrop
        by_cases hcd : canDrop bd side tk q''.1 q''.2 = true
        · rw [if_pos hcd] at heq
          obtain ⟨rfl, rfl⟩ := GenMove.drop.inj (Option.some.inj heq)
          exact ⟨htk, by omega, hcd⟩
        · rw [if_neg hcd] at heq; simp at heq
  · rintro ⟨hpc, hpos, hcan⟩
    refine Or.inr ⟨pc, hpc, ?_⟩
    rw [if_neg (by omega)]
    simp only [List.mem_filterMap]
    exact ⟨q, mem_squaresList q, by rw [if_pos hcan]⟩

/-! ## C3: the pawn-drop ("two pawns") rule -/

theorem hasPawnInFile_eq_false_iff (bd : Board) (side : Side) (c : Fin 9) :
    hasPawnInFile bd side c = false ↔
    ∀ (r' : Fin 9) (p : Piece), bd r' c = some p → p.side = side →
      demoteMap p.type ≠ .P := by
  unfold hasPawnInFile
  rw [List.any_eq_false]
  constructor
  · intro h r' p hbp hside hdem
    have := h r' (List.mem_finRange r')
    rw [hbp] at this
    simp [hside, hdem] at this
  · intro h r' _
    rcases hbp : bd r' c with _ | p
    · simp
    · simp only [Bool.and_eq_true, decide_eq_true_eq, not_and]
      intro hside
      simp [h r' p hbp hside]

theorem canDrop_P_iff (bd : Board) (side : Side) (r c : Fin 9) :
    canDrop bd side .P r c = true ↔
    bd r c = none ∧ ¬((side = .black ∧ r.val = 8) ∨ (side = .white ∧ r.val = 0)) ∧
      hasPawnInFile bd side c = false := by
  rcases hb : bd r c with _ | p
  · unfold canDrop
    rw [hb]
    split_ifs with h0 h1 h2 h3 h4 <;> simp_all
  · simp [canDrop, hb]

/-- C3 (amended): a pawn drop on `(r,c)` is generated exactly when the
mover holds a pawn, the square is empty, it is not on the mover's farthest
rank, and no square of file `c` holds a piece of the mover's side whose
demotion is a pawn — i.e. an unpromoted pawn or a promoted pawn equally
block the drop. -/
theorem pawn_drop_rule (bd : Board) (hB hW : Hand) (side : Side) (r c : Fin 9) :
    GenMove.drop .P (r, c) ∈ enumerateMovesGeneric bd hB hW side ↔
    (0 < ((if side = Side.black then hB else hW) .P).getD 0 ∧
      bd r c = none ∧
      ¬((side = .black ∧ r.val = 8) ∨ (side = .white ∧ r.val = 0)) ∧
      ∀ (r' : Fin 9) (p : Piece), bd r' c = some p → p.side = side →
        demoteMap p.type ≠ .P) := by
  rw [mem_enumerate_drop]
  constructor
  · rintro ⟨_, hpos, hcan⟩
    obtain ⟨h1, h2, h3⟩ := (canDrop_P_iff bd side r c).mp hcan
    exact ⟨hpos, h1, h2, (hasPawnInFile_eq_false_iff bd side c).mp h3⟩
  · rintro ⟨hpos, h1, h2, h3⟩
    exact ⟨by decide, hpos,
      (canDrop_P_iff bd side r c).mpr ⟨h1, h2, (hasPawnInFile_eq_false_iff bd side c).mpr h3⟩⟩

/-- Witness for C3 (amended): on an empty board with one pawn in hand the
white pawn drop on `(5,4)` is generated. -/
theorem pawn_drop_rule_witness :
    GenMove.drop .P (5, 4) ∈ enumerateMovesGeneric bdEmpty hEmpty hOneP .white :=
  (pawn_drop_rule bdEmpty hEmpty hOneP .white 5 4).mpr (by decide)

/-- Counterexample for C3 as stated: a white promoted pawn (tokin) on file
4 blocks the white pawn drop `(5,4)` even though the file contains no
unpromoted white pawn, the square is empty and is not the farthest rank. -/
theorem pawn_drop_rule_cex :
    bdTokin (5 : Fin 9) (4 : Fin 9) = none ∧
    ¬((Side.white = Side.black ∧ (5 : Fin 9).val = 8) ∨
       (Side.white = Side.white ∧ (5 : Fin 9).val = 0)) ∧
    (∀ r' : Fin 9, bdTokin r' (4 : Fin 9) ≠ some ⟨.white, .P⟩) ∧
    0 < ((hOneP : Hand) .P).getD 0 ∧
    GenMove.drop .P (5, 4) ∉ enumerateMovesGeneric bdTokin hEmpty hOneP .white := by
  refine ⟨by decide, by decide, by decide, by decide, ?_⟩
  intro h
  have := ((pawn_drop_rule bdTokin hEmpty hOneP .white 5 4).mp h).2.2.2
  exact this (4 : Fin 9) ⟨.white, .PP⟩ (by decide) (by decide) (by decide)

/-! ## C5: promotion variants and forced promotion -/

/-- C5: a generated board move of a promotable piece touching the enemy
zone comes in both a promoting and a non-promoting variant, unless forced
promotion applies, in which case only the promoting variant is generated;
in particular an unpromoted pawn's move to the farthest rank is never
generated with the promotion flag off. -/
theorem promotion_variants (bd : Board) (hB hW : Hand) (side : Side) :
    (∀ (f t : Pos) (p : Piece), bd f.1 f.2 = some p → p.side = side →
      t ∈ legalMoves bd f.1 f.2 →
      isPromotableType p.type = true → isForcedPromotion side p.type t.1 = true →
      (GenMove.move f t (bd t.1 t.2) true ∈ enumerateMovesGeneric bd hB hW side ∧
        ∀ took, GenMove.move f t took false ∉ enumerateMovesGeneric bd hB hW side))
    ∧ (∀ (f t : Pos) (p : Piece), bd f.1 f.2 = some p → p.side = side →
      t ∈ legalMoves bd f.1 f.2 →
      isPromotableType p.type = true → isForcedPromotion side p.type t.1 = false →
      involvesEnemyZone side f.1 t.1 = true →
      (GenMove.move f t (bd t.1 t.2) true ∈ enumerateMovesGeneric bd hB hW side ∧
        GenMove.move f t (bd t.1 t.2) false ∈ enumerateMovesGeneric bd hB hW side))
    ∧ (∀ (f t : Pos) (took : Option Piece) (p : Piece),
        GenMove.move f t took false ∈ enumerateMovesGeneric bd hB hW side →
        bd f.1 f.2 = some p → p.type = .P →
        ¬((side = .black ∧ t.1.val = 8) ∨ (side = .white ∧ t.1.val = 0))) := by
  refine ⟨?_, ?_, ?_⟩
  · intro f t p hp hs hl hprom hforced
    have hmust : (isPromotableType p.type && isForcedPromotion side p.type t.1) = true := by
      simp [hprom, hforced]
    constructor
    · exact (mem_enumerate_move bd hB hW side f t _ true).mpr
        ⟨p, hp, hs, hl, rfl, by rw [promotePolicy, if_pos hmust]⟩
    · intro took hmem
      obtain ⟨p2, hp2, _, _, _, hpol⟩ := (mem_enumerate_move bd hB hW side f t took false).mp hmem
      obtain rfl : p = p2 := Option.some.inj (hp ▸ hp2)
      rw [promotePolicy, if_pos hmust] at hpol
      exact absurd hpol (by decide)
  · intro f t p hp hs hl hprom hforced hzone
    have hmust : (isPromotableType p.type && isForcedPromotion side p.type t.1) = false := by
      simp [hforced]
    have hcan : (isPromotableType p.type && involvesEnemyZone side f.1 t.1) = true := by
      simp [hprom, hzone]
    constructor
    · exact (mem_enumerate_move bd hB hW side f t _ true).mpr
        ⟨p, hp, hs, hl, rfl, by rw [promotePolicy, if_neg (by simp [hmust]), if_pos hcan]; trivial⟩
    · exact (mem_enumerate_move bd hB hW side f t _ false).mpr
        ⟨p, hp, hs, hl, rfl, by rw [promotePolicy, if_neg (by simp [hmust]), if_pos hcan]; trivial⟩
  · intro f t took p hmem hp hpt hfar
    obtain ⟨p2, hp2, hs2, hl2, htk, hpol⟩ := (mem_enumerate_move bd hB hW side f t took false).mp hmem
    obtain rfl : p = p2 := Option.some.inj (hp ▸ hp2)
    have hforced : isForcedPromotion side p.type t.1 = true := by
      rw [hpt]
      simp only [isForcedPromotion, isPromoted, demoteMap]
      simpa using hfar
    have hmust : (isPromotableType p.type && isForcedPromotion side p.type t.1) = true := by
      rw [hpt] at hforced ⊢
      rw [hforced]
      decide
    rw [promotePolicy, if_pos hmust] at hpol
    exact absurd hpol (by decide)

/-- Witness for C5: the black pawn on `(7,4)` moving to the farthest rank
is generated only with promotion. -/
theorem promotion_variants_witness :
    GenMove.move ((7 : Fin 9), (4 : Fin 9)) ((8 : Fin 9), (4 : Fin 9))
        (bdForced 8 4) true ∈ enumerateMovesGeneric bdForced hEmpty hEmpty .black ∧
    GenMove.move ((7 : Fin 9), (4 : Fin 9)) ((8 : Fin 9), (4 : Fin 9))
        none false ∉ enumerateMovesGeneric bdForced hEmpty hEmpty .black := by
  have h := (promotion_variants bdForced hEmpty hEmpty .black).1
    ((7 : Fin 9), (4 : Fin 9)) ((8 : Fin 9), (4 : Fin 9)) ⟨.black, .P⟩
    (by decide) (by decide) (by decide) (by decide) (by decide)
  exact ⟨h.1, h.2 none⟩

/-! ## C2: codec round trip -/

theorem splitOnChar_no_sep (sep : Char) (l : List Char) (h : ∀ x ∈ l, x ≠ sep) :
    splitOnChar sep l = [l] := by
  induction l with
  | nil => rfl
  | cons a l ih =>
    simp only [splitOnChar]
    rw [if_neg (h a (by simp)), ih (fun x hx => h x (by simp [hx]))]
    rfl

theorem splitColon (a : Char) (L : List Char) (ha : a ≠ ':') (hL : ∀ x ∈ L, x ≠ ':') :
    splitOnChar ':' (a :: ':' :: L) = [[a], L] := by
  simp [splitOnChar, ha, splitOnChar_no_sep ':' L hL]

theorem splitComma3 (x1 x2 x3 : Char) (h1 : x1 ≠ ',') (h2 : x2 ≠ ',') (h3 : x3 ≠ ',') :
    splitOnChar ',' [x1, ',', x2, ',', x3] = [[x1], [x2], [x3]] := by
  simp [splitOnChar, h1, h2, h3]

theorem splitComma5 (x1 x2 x3 x4 x5 : Char) (h1 : x1 ≠ ',') (h2 : x2 ≠ ',')
    (h3 : x3 ≠ ',') (h4 : x4 ≠ ',') (h5 : x5 ≠ ',') :
    splitOnChar ',' [x1, ',', x2, ',', x3, ',', x4, ',', x5]
      = [[x1], [x2], [x3], [x4], [x5]] := by
  simp [splitOnChar, h1, h2, h3, h4, h5]

theorem digitOf_ne_colon (d : Fin 9) : digitOf d ≠ ':' := by
  revert d; decide

theorem digitOf_ne_comma (d : Fin 9) : digitOf d ≠ ',' := by
  revert d; decide

theorem pieceChar_ne_colon (b : BasePiece) : pieceChar b ≠ ':' := by
  cases b <;> decide

theorem pieceChar_ne_comma (b : BasePiece) : pieceChar b ≠ ',' := by
  cases b <;> decide

theorem prChar_ne_colon (pr : Bool) : (if pr then '1' else '0') ≠ ':' := by
  revert pr; decide

theorem prChar_ne_comma (pr : Bool) : (if pr then '1' else '0') ≠ ',' := by
  revert pr; decide

theorem parseFin9_digitOf (d : Fin 9) : parseFin9 [digitOf d] = some d := by
  revert d; decide

theorem parseBase_pieceChar (b : BasePiece) : parseBase [pieceChar b] = some b := by
  cases b <;> decide

theorem parsePr (pr : Bool) :
    (match parseNatD [if pr then '1' else '0'] with
      | some n => decide (n ≠ 0)
      | none => false) = pr := by
  revert pr; decide

/-- C2: unpacking a packed generated move against the board it was
generated from restores every observable field — for a board move the
kind, origin, destination, promotion flag, and the captured piece (read
back off that board); for a drop the kind, piece kind and destination. -/
theorem pack_unpack_roundtrip (bd : Board) (hB hW : Hand) (side : Side) (m : GenMove)
    (hm : m ∈ enumerateMovesGeneric bd hB hW side) :
    (unpack (pack m) bd).map SidedMove.strip = some m := by
  rcases m with ⟨f, t, took, pr⟩ | ⟨pc, a⟩
  · obtain ⟨p, hp, hs, hl, htook, hpol⟩ :=
      (mem_enumerate_move bd hB hW side f t took pr).mp hm
    subst htook
    show (unpack ('m' :: ':' :: [digitOf f.1, ',', digitOf f.2, ',', digitOf t.1, ',',
      digitOf t.2, ',', if pr then '1' else '0']) bd).map SidedMove.strip = _
    rw [unpack]
    rw [if_neg (by simp : ¬(List.head? ('m' :: ':' :: [digitOf f.1, ',', digitOf f.2, ',',
      digitOf t.1, ',', digitOf t.2, ',', if pr then '1' else '0']) = some 'd'))]
    rw [splitColon 'm' _ (by decide) (by
      intro x hx
      simp only [List.mem_cons, List.not_mem_nil, or_false] at hx
      rcases hx with rfl | rfl | rfl | rfl | rfl | rfl | rfl | rfl | rfl
      · exact digitOf_ne_colon _
      · decide
      · exact digitOf_ne_colon _
      · decide
      · exact digitOf_ne_colon _
      · decide
      · exact digitOf_ne_colon _
      · decide
      · exact prChar_ne_colon pr)]
    simp only [List.getD_cons_succ, List.getD_cons_zero]
    rw [splitComma5 _ _ _ _ _ (digitOf_ne_comma f.1) (digitOf_ne_comma f.2)
      (digitOf_ne_comma t.1) (digitOf_ne_comma t.2) (prChar_ne_comma pr)]
    simp only [parseFin9_digitOf, Option.bind_some, Option.map_some', parsePr,
      Option.map_map]
    simp [SidedMove.strip]
  · show (unpack ('d' :: ':' :: [pieceChar pc, ',', digitOf a.1, ',', digitOf a.2]) bd).map
      SidedMove.strip = _
    rw [unpack]
    rw [if_pos (show List.head? ('d' :: ':' :: [pieceChar pc, ',', digitOf a.1, ',',
      digitOf a.2]) = some 'd' by rfl)]
    rw [splitColon 'd' _ (by decide) (by
      intro x hx
      simp only [List.mem_cons, List.not_mem_nil, or_false] at hx
      rcases hx with rfl | rfl | rfl | rfl | rfl
      · exact pieceChar_ne_colon pc
      · decide
      · exact digitOf_ne_colon _
      · decide
      · exact digitOf_ne_colon _)]
    simp only [List.getD_cons_succ, List.getD_cons_zero]
    rw [splitComma3 _ _ _ (pieceChar_ne_comma pc) (digitOf_ne_comma a.1) (digitOf_ne_comma a.2)]
    simp only [parseBase_pieceChar, parseFin9_digitOf, Option.bind_some, Option.map_some',
      Option.map_map]
    simp [SidedMove.strip]

/-- Witness for C2 at the single generated move of `bdOneWP`. -/
theorem pack_unpack_roundtrip_witness :
    (unpack (pack (GenMove.move ((4 : Fin 9), (4 : Fin 9)) ((3 : Fin 9), (4 : Fin 9))
        none false)) bdOneWP).map SidedMove.strip
      = some (GenMove.move ((4 : Fin 9), (4 : Fin 9)) ((3 : Fin 9), (4 : Fin 9)) none false) :=
  pack_unpack_roundtrip bdOneWP hEmpty hEmpty .white _ (by decide)

/-! ## C7: quiescence terminates -/

theorem cntP_le_81 (P : Option Piece → Bool) (bd : Board) : cntP P bd ≤ 81 := by
  unfold cntP
  calc ((Finset.univ : Finset Pos).filter (fun q => P (bd q.1 q.2) = true)).card
      ≤ (Finset.univ : Finset Pos).card := Finset.card_filter_le _ _
    _ = 81 := by simp

theorem cntP_setP (P : Option Piece → Bool) (bd : Board) (q : Pos) (v : Option Piece) :
    cntP P (setP bd q v) + (if P (bd q.1 q.2) = true then 1 else 0)
      = cntP P bd + (if P v = true then 1 else 0) := by
  unfold cntP
  rw [Finset.card_filter, Finset.card_filter,
    ← Finset.sum_erase_add _ _ (Finset.mem_univ q),
    ← Finset.sum_erase_add _ _ (Finset.mem_univ q)]
  have h1 : ∀ x ∈ (Finset.univ : Finset Pos).erase q,
      (if P (setP bd q v x.1 x.2) = true then 1 else 0)
        = (if P (bd x.1 x.2) = true then (1 : ℕ) else 0) := by
    intro x hx
    rw [setP_ne bd q x v (Finset.ne_of_mem_erase hx)]
  rw [Finset.sum_congr rfl h1]
  have h2 : setP bd q v q.1 q.2 = v := by simp [setP]
  rw [h2]
  omega

theorem cntP_apply_board (bd : Board) (f t : Pos) (v' : Option Piece) (hne : f ≠ t)
    (P : Option Piece → Bool) :
    cntP P (setP (setP bd t v') f none) + (if P (bd f.1 f.2) = true then 1 else 0)
        + (if P (bd t.1 t.2) = true then 1 else 0)
      = cntP P bd + (if P v' = true then 1 else 0) + (if P none = true then 1 else 0) := by
  have e1 := cntP_setP P bd t v'
  have e2 := cntP_setP P (setP bd t v') f none
  rw [setP_ne bd t f v' hne] at e2
  omega

theorem gen_move_facts (bd : Board) (hB hW : Hand) (side : Side) (f t : Pos)
    (took : Option Piece) (pr : Bool)
    (hm : GenMove.move f t took pr ∈ enumerateMovesGeneric bd hB hW side) :
    ∃ p, bd f.1 f.2 = some p ∧ p.side = side ∧ took = bd t.1 t.2 ∧ f ≠ t ∧
      (pr = true → isPromotableType p.type = true) := by
  obtain ⟨p, hp, hs, hl, htook, hpol⟩ :=
    (mem_enumerate_move bd hB hW side f t took pr).mp hm
  refine ⟨p, hp, hs, htook, ?_, ?_⟩
  · intro heq
    subst heq
    rcases legalMoves_occ bd f.1 f.2 p hp f hl with hnone | ⟨occ, hoccq, hside⟩
    · rw [hp] at hnone
      exact absurd hnone (by simp)
    · rw [hp] at hoccq
      obtain rfl := Option.some.inj hoccq
      exact hside rfl
  · intro hpr
    subst hpr
    rw [promotePolicy] at hpol
    by_cases h1 : (isPromotableType p.type && isForcedPromotion side p.type t.1) = true
    · rw [Bool.and_eq_true] at h1
      exact h1.1
    · rw [if_neg h1] at hpol
      by_cases h2 : (isPromotableType p.type && involvesEnemyZone side f.1 t.1) = true
      · rw [Bool.and_eq_true] at h2
        exact h2.1
      · rw [if_neg h2] at hpol
        exact absurd hpol (by decide)

theorem isPromotableType_toPromoted (pt : PieceType) (h : isPromotableType pt = true) :
    isPromotableType (toPromoted pt) = false := by
  revert h
  cases pt <;> decide

theorem measure_decreases (bd : Board) (hB hW : Hand) (side : Side) (m : GenMove)
    (hm : m ∈ enumerateMovesGeneric bd hB hW side) (hcp : isCapPromo m = true) :
    measureQ (applyOneMove bd hB hW side m).bd < measureQ bd := by
  rcases m with ⟨f, t, took, pr⟩ | ⟨pc, a⟩
  case drop => simp [isCapPromo] at hcp
  obtain ⟨p, hp, hs, htook, hft, hprom⟩ := gen_move_facts bd hB hW side f t took pr hm
  have hbd : (applyOneMove bd hB hW side (.move f t took pr)).bd
      = setP (setP bd t (some ⟨side,
          if pr && isPromotableType p.type then toPromoted p.type else p.type⟩)) f none := by
    simp only [applyOneMove, cloneBoard, id, hp, Option.map_some']
  rw [hbd]
  rcases htk : took with _ | v
  · -- non-capturing promotion
    have hpr : pr = true := by
      rw [htk] at hcp
      simpa [isCapPromo] using hcp
    subst hpr
    have hptype : isPromotableType p.type = true := hprom rfl
    have hbt : bd t.1 t.2 = none := by rw [← htook, htk]
    have hpiece : (if true && isPromotableType p.type then toPromoted p.type else p.type)
        = toPromoted p.type := by simp [hptype]
    rw [hpiece]
    have e1 := cntP_apply_board bd f t (some ⟨side, toPromoted p.type⟩) hft Option.isSome
    have e2 := cntP_apply_board bd f t (some ⟨side, toPromoted p.type⟩) hft isUnpromProm
    rw [hp, hbt] at e1 e2
    simp [isUnpromProm, hptype, isPromotableType_toPromoted p.type hptype] at e1 e2
    unfold measureQ
    omega
  · -- capture
    have hbt : bd t.1 t.2 = some v := by rw [← htook, htk]
    have e1 := cntP_apply_board bd f t
      (some ⟨side, if pr && isPromotableType p.type then toPromoted p.type else p.type⟩)
      hft Option.isSome
    rw [hp, hbt] at e1
    simp only [Option.isSome_some, Option.isSome_none, Bool.false_eq_true,
      eq_self_iff_true, if_true, if_false] at e1
    have hb81 := cntP_le_81 isUnpromProm
      (setP (setP bd t (some ⟨side,
        if pr && isPromotableType p.type then toPromoted p.type else p.type⟩)) f none)
    unfold measureQ
    omega

theorem qloopF_isSome (n : Nat) (bd : Board) (hB hW : Hand) (side : Side) (beta : ℚ)
    (hq : ∀ (bd' : Board) (hB' hW' : Hand) (side' : Side) (a b : ℚ),
      measureQ bd' < n → (quiescenceF n bd' hB' hW' side' a b).isSome = true)
    (hmb : measureQ bd ≤ n) :
    ∀ (l : List GenMove) (alpha : ℚ),
      (∀ m ∈ l, m ∈ enumerateMovesGeneric bd hB hW side ∧ isCapPromo m = true) →
      (qloopF (quiescenceF n) bd hB hW side beta l alpha).isSome = true := by
  intro l
  induction l with
  | nil => intro alpha _; rfl
  | cons m rest ih =>
    intro alpha hl
    obtain ⟨hmem, hcp⟩ := hl m (by simp)
    have hscore : (if (applyOneMove bd hB hW side m).winner.isSome then some (999999 : ℚ)
        else (quiescenceF n (applyOneMove bd hB hW side m).bd
          (applyOneMove bd hB hW side m).hB (applyOneMove bd hB hW side m).hW
          side.other (-beta) (-alpha)).map (fun s => -s)).isSome = true := by
      by_cases hw : (applyOneMove bd hB hW side m).winner.isSome = true
      · rw [if_pos hw]
        rfl
      · rw [if_neg hw, Option.isSome_map']
        exact hq _ _ _ _ _ _
          (by have := measure_decreases bd hB hW side m hmem hcp; omega)
    obtain ⟨sc, hsc⟩ := Option.isSome_iff_exists.mp hscore
    rw [qloopF, hsc]
    simp only [Option.bind]
    by_cases hsb : sc ≥ beta
    · rw [if_pos hsb]
      rfl
    · rw [if_neg hsb]
      exact ih _ (fun m' hm' => hl m' (by simp [hm']))

/-- C7: the fuelled quiescence never exhausts its fuel once the fuel
exceeds `measureQ` of the board — it recurses only on generated board
moves that capture or promote, and each such move strictly decreases
`measureQ` (captures remove a board piece, non-capturing promotions remove
an unpromoted promotable piece), so the recursion of the source, which
carries no depth counter, terminates on every position. -/
theorem quiescence_terminates :
    ∀ (fuel : Nat) (bd : Board) (hB hW : Hand) (side : Side) (alpha beta : ℚ),
      measureQ bd < fuel →
      (quiescenceF fuel bd hB hW side alpha beta).isSome = true := by
  intro fuel
  induction fuel with
  | zero => intro bd _ _ _ _ _ h; omega
  | succ n ih =>
    intro bd hB hW side alpha beta h
    rw [quiescenceF]
    by_cases hsb : evaluateBoard bd hB hW * (if side = Side.white then 1 else -1) ≥ beta
    · rw [if_pos hsb]
      rfl
    · rw [if_neg hsb]
      apply qloopF_isSome n bd hB hW side beta ih (by omega)
      intro m hm2
      have hm' : m ∈ (enumerateMovesGeneric bd hB hW side).filter isCapPromo := by
        split at hm2
        · exact List.mem_mergeSort.mp (List.take_subset _ _ hm2)
        · exact hm2
      exact ⟨(List.mem_filter.mp hm').1, (List.mem_filter.mp hm').2⟩

/-- Witness for C7 on the two-king board (measure 200). -/
theorem quiescence_terminates_witness :
    measureQ bdTwoKings < 201 ∧
    (quiescenceF 201 bdTwoKings hEmpty hEmpty .black (-1000000000) 1000000000).isSome = true := by
  have hm : measureQ bdTwoKings < 201 := by decide
  exact ⟨hm, quiescence_terminates 201 bdTwoKings hEmpty hEmpty .black _ _ hm⟩

/-! ## C1: think returns null exactly on an empty root move set, and
otherwise a token packing a generated root move -/

theorem TT_set_apply (tt : TT) (e0 : TTEntry) (k : Nat) :
    (tt.set e0) k = if k = e0.key then some e0 else tt k := rfl

theorem probeTT_inv (tte : Option TTEntry) (depth : Int) (alpha beta : ℚ) (r : SResult)
    (h : probeTT tte depth alpha beta = some r) :
    ∃ e, tte = some e ∧ depth ≤ e.depth ∧ r.move = e.best := by
  rcases tte with _ | e
  · exact absurd h (by simp [probeTT])
  · rw [probeTT] at h
    by_cases hd : e.depth ≥ depth
    · rw [if_pos hd] at h
      refine ⟨e, rfl, hd, ?_⟩
      by_cases h0 : e.flag = 0
      · rw [if_pos h0] at h
        obtain rfl := Option.some.inj h
        rfl
      · rw [if_neg h0] at h
        by_cases h1 : e.flag = 1 ∧ e.score ≤ alpha
        · rw [if_pos h1] at h
          obtain rfl := Option.some.inj h
          rfl
        · rw [if_neg h1] at h
          by_cases h2 : e.flag = 2 ∧ e.score ≥ beta
          · rw [if_pos h2] at h
            obtain rfl := Option.some.inj h
            rfl
          · rw [if_neg h2] at h
            exact absurd h (by simp)
    · rw [if_neg hd] at h
      exact absurd h (by simp)

theorem mem_orderMoves (bd : Board) (side : Side) (l : List GenMove) (ply : Nat)
    (hist : HistK → ℚ) (killers : Nat → List PackedMove) (pv ttBest : Option PackedMove)
    (x : GenMove) : x ∈ orderMoves bd side l ply hist killers pv ttBest ↔ x ∈ l := by
  unfold orderMoves
  constructor
  · intro hx
    obtain ⟨pair, hmem, hpr⟩ := List.mem_map.mp hx
    obtain ⟨m, hm, rfl⟩ := List.mem_map.mp (List.mem_mergeSort.mp hmem)
    rw [← hpr]
    exact hm
  · intro hx
    exact List.mem_map.mpr
      ⟨(x, moveOrderScore bd side hist (killers ply) pv ttBest x),
        List.mem_mergeSort.mpr (List.mem_map.mpr ⟨x, hx, rfl⟩), rfl⟩


theorem searchLoopStep_pres
    (child : Board → Hand → Hand → Side → ℚ → ℚ → Nat → Nat → Option PackedMove → SState →
      SResult × SState)
    (bd : Board) (hB hW : Hand) (side : Side) (depth : Int) (beta : ℚ) (ply : Nat)
    (st0 : SState) (raw : List GenMove)
    (hchild : ∀ b hb hw s a2 b2 k2 p2 pv2 stc k e,
      (child b hb hw s a2 b2 k2 p2 pv2 stc).2.tt k = some e →
        stc.tt k = some e ∨ e.depth ≤ depth - 1)
    (acc : ℚ × Option PackedMove × SState × Bool × Bool) (m : GenMove) (hm : m ∈ raw)
    (hbm : acc.2.1 = none ∨ ∃ m2 ∈ raw, acc.2.1 = some (pack m2))
    (htt : ∀ k e, acc.2.2.1.tt k = some e → st0.tt k = some e ∨ e.depth ≤ depth - 1) :
    ((searchLoopStep child bd hB hW side depth beta ply acc m).2.1 = none
      ∨ ∃ m2 ∈ raw,
        (searchLoopStep child bd hB hW side depth beta ply acc m).2.1 = some (pack m2))
    ∧ (∀ k e,
        (searchLoopStep child bd hB hW side depth beta ply acc m).2.2.1.tt k = some e →
        st0.tt k = some e ∨ e.depth ≤ depth - 1) := by
  obtain ⟨a, bm, stc, done, first⟩ := acc
  dsimp only at hbm htt
  rw [searchLoopStep]
  dsimp only
  by_cases hdone : done = true
  · rw [if_pos hdone]
    exact ⟨hbm, htt⟩
  · rw [if_neg hdone]
    have hch1 : ∀ b hb hw2 s a2 b2 k2 p2 pv2 (stc2 : SState),
        (∀ k e, stc2.tt k = some e → st0.tt k = some e ∨ e.depth ≤ depth - 1) →
        ∀ k e, (child b hb hw2 s a2 b2 k2 p2 pv2 stc2).2.tt k = some e →
          st0.tt k = some e ∨ e.depth ≤ depth - 1 := by
      intro b hb hw2 s a2 b2 k2 p2 pv2 stc2 hbase k e h
      rcases hchild b hb hw2 s a2 b2 k2 p2 pv2 stc2 k e h with h2 | h2
      · exact hbase k e h2
      · exact Or.inr h2
    have tail : ∀ (sc : ℚ) (st' : SState)
        (res : ℚ × Option PackedMove × SState × Bool × Bool),
        (∀ k e, st'.tt k = some e → st0.tt k = some e ∨ e.depth ≤ depth - 1) →
        res = (if sc > a then
            if sc ≥ beta then
              (sc, some (pack m),
                ({ st' with
                  history := cutHistory (st'.history) side m depth,
                  killers := pushKiller st'.killers ply (pack m) } : SState), true, false)
            else (sc, some (pack m), st', false, false)
          else (a, bm, st', false, false)) →
        ((res.2.1 = none ∨ ∃ m2 ∈ raw, res.2.1 = some (pack m2))
          ∧ ∀ k e, res.2.2.1.tt k = some e → st0.tt k = some e ∨ e.depth ≤ depth - 1) := by
      intro sc st' res hst' hres
      subst hres
      by_cases h1 : sc > a
      · rw [if_pos h1]
        by_cases h2 : sc ≥ beta
        · rw [if_pos h2]
          exact ⟨Or.inr ⟨m, hm, rfl⟩, fun k e h => hst' k e h⟩
        · rw [if_neg h2]
          exact ⟨Or.inr ⟨m, hm, rfl⟩, fun k e h => hst' k e h⟩
      · rw [if_neg h1]
        exact ⟨hbm, fun k e h => hst' k e h⟩
    by_cases hw : (applyOneMove bd hB hW side m).winner.isSome = true
    · rw [if_pos hw]
      dsimp only
      exact tail _ _ _ htt rfl
    · rw [if_neg hw]
      by_cases hfirst : first = true
      · rw [if_pos hfirst]
        dsimp only
        exact tail _ _ _ (hch1 _ _ _ _ _ _ _ _ _ _ htt) rfl
      · rw [if_neg hfirst]
        split
        · exact tail _ _ _ (hch1 _ _ _ _ _ _ _ _ _ _ (hch1 _ _ _ _ _ _ _ _ _ _ htt)) rfl
        · exact tail _ _ _ (hch1 _ _ _ _ _ _ _ _ _ _ htt) rfl

theorem search_invariants : ∀ (n : Nat) (depth : Int), depth.toNat ≤ n →
    ∀ (clock : Nat → Int) (start limitMs : Int) (bd : Board) (hB hW : Hand) (side : Side)
      (alpha beta : ℚ) (key : Nat) (ply : Nat) (pv : Option PackedMove) (st : SState),
      ((search clock start limitMs bd hB hW side depth alpha beta key ply pv st).1.move = none
        ∨ (∃ m ∈ enumerateMovesGeneric bd hB hW side,
            (search clock start limitMs bd hB hW side depth alpha beta key ply pv st).1.move
              = some (pack m))
        ∨ (∃ e, st.tt key = some e ∧ depth ≤ e.depth ∧
            (search clock start limitMs bd hB hW side depth alpha beta key ply pv st).1.move
              = e.best))
      ∧ (∀ k e,
          (search clock start limitMs bd hB hW side depth alpha beta key ply pv st).2.tt k
            = some e →
          st.tt k = some e ∨ e.depth < depth ∨
            (e.depth = depth ∧ k = key ∧
              (e.best = none ∨ ∃ m ∈ enumerateMovesGeneric bd hB hW side,
                e.best = some (pack m)))) := by
  intro n
  induction n using Nat.strong_induction_on with
  | _ n ih =>
  intro depth hd clock start limitMs bd hB hW side alpha beta key ply pv st
  rw [search.eq_def]
  split
  · exact ⟨Or.inl (by dsimp only; split <;> rfl),
      fun k e h => Or.inl (by dsimp only at h; revert h; split <;> exact fun h => h)⟩
  · exact ⟨Or.inl (by dsimp only; split <;> rfl),
      fun k e h => Or.inl (by dsimp only at h; revert h; split <;> exact fun h => h)⟩
  · rename_i myK w hk1 hk2
    dsimp only
    by_cases hto : clock st.idx - start > limitMs
    · rw [if_pos hto]
      exact ⟨Or.inl rfl, fun k e h => Or.inl h⟩
    · rw [if_neg hto]
      split
      · rename_i r hprobe
        obtain ⟨e, hte, hde, hbe⟩ := probeTT_inv _ _ _ _ _ hprobe
        exact ⟨Or.inr (Or.inr ⟨e, hte, hde, hbe⟩), fun k e2 h => Or.inl h⟩
      · by_cases h0 : depth ≤ 0
        · rw [dif_pos h0]
          exact ⟨Or.inl rfl, fun k e h => Or.inl h⟩
        · rw [dif_neg h0]
          by_cases hfut : depth ≤ 2 ∧ |beta - alpha| > 200 ∧
              (evaluateBoard bd hB hW * if side = Side.white then 1 else -1) + 150 < alpha
          · rw [if_pos hfut]
            exact ⟨Or.inl rfl, fun k e h => Or.inl h⟩
          · rw [if_neg hfut]
            have hchild : ∀ b hb hw s a2 b2 k2 p2 pv2 (stc : SState) k e,
                (search clock start limitMs b hb hw s (depth - 1) a2 b2 k2 p2 pv2 stc).2.tt k
                  = some e →
                stc.tt k = some e ∨ e.depth ≤ depth - 1 := by
              intro b hb hw s a2 b2 k2 p2 pv2 stc k e h
              rcases (ih (depth - 1).toNat (by omega) (depth - 1) le_rfl clock start limitMs
                  b hb hw s a2 b2 k2 p2 pv2 stc).2 k e h with h2 | h2 | h2
              · exact Or.inl h2
              · exact Or.inr (by omega)
              · exact Or.inr (le_of_eq h2.1)
            have hrest : ∀ (st1 : SState) (res : SResult × SState),
                res = (if enumerateMovesGeneric bd hB hW side = [] then
                    (⟨evaluateBoard bd hB hW * (if side = Side.white then 1 else -1) - 200,
                      none⟩, st1)
                  else
                    let fin := (orderMoves bd side (enumerateMovesGeneric bd hB hW side) ply
                        st1.history st1.killers pv ((st.tt key).bind TTEntry.best)).foldl
                      (searchLoopStep
                        (fun b hb hw s a2 b2 k2 p2 pv2 stc =>
                          search clock start limitMs b hb hw s (depth - 1) a2 b2 k2 p2 pv2 stc)
                        bd hB hW side depth beta ply)
                      (alpha, none, st1, false, true)
                    (⟨fin.1, fin.2.1⟩,
                      { fin.2.2.1 with
                        tt := TT.set (fin.2.2.1.tt)
                          ⟨key, depth,
                            (if fin.1 ≤ alpha then 1 else if fin.1 ≥ beta then 2 else 0),
                            fin.1, fin.2.1, 1⟩ })) →
                (∀ k e, st1.tt k = some e → st.tt k = some e ∨ e.depth < depth) →
                ((res.1.move = none
                    ∨ (∃ m ∈ enumerateMovesGeneric bd hB hW side, res.1.move = some (pack m))
                    ∨ (∃ e, st.tt key = some e ∧ depth ≤ e.depth ∧ res.1.move = e.best))
                  ∧ ∀ k e, res.2.tt k = some e →
                      st.tt k = some e ∨ e.depth < depth ∨
                        (e.depth = depth ∧ k = key ∧
                          (e.best = none ∨ ∃ m ∈ enumerateMovesGeneric bd hB hW side,
                            e.best = some (pack m)))) := by
              intro st1 res hres htt1
              subst hres
              by_cases hraw : enumerateMovesGeneric bd hB hW side = []
              · rw [if_pos hraw]
                exact ⟨Or.inl rfl, fun k e h => (htt1 k e h).imp id Or.inl⟩
              · rw [if_neg hraw]
                dsimp only
                obtain ⟨hbm, htt2⟩ :=
                  foldl_pres (fun acc : ℚ × Option PackedMove × SState × Bool × Bool =>
                      (acc.2.1 = none
                        ∨ ∃ m ∈ enumerateMovesGeneric bd hB hW side, acc.2.1 = some (pack m))
                      ∧ ∀ k e, acc.2.2.1.tt k = some e →
                          st1.tt k = some e ∨ e.depth ≤ depth - 1)
                    (searchLoopStep
                      (fun b hb hw s a2 b2 k2 p2 pv2 stc =>
                        search clock start limitMs b hb hw s (depth - 1) a2 b2 k2 p2 pv2 stc)
                      bd hB hW side depth beta ply)
                    (orderMoves bd side (enumerateMovesGeneric bd hB hW side) ply
                      st1.history st1.killers pv ((st.tt key).bind TTEntry.best))
                    (alpha, none, st1, false, true)
                    ⟨Or.inl rfl, fun k e h => Or.inl h⟩
                    (fun acc m hmem hP =>
                      searchLoopStep_pres _ bd hB hW side depth beta ply st1 _ hchild acc m
                        ((mem_orderMoves _ _ _ _ _ _ _ _ m).mp hmem) hP.1 hP.2)
                refine ⟨?_, ?_⟩
                · rcases hbm with h | ⟨m2, hm2, h⟩
                  · exact Or.inl h
                  · exact Or.inr (Or.inl ⟨m2, hm2, h⟩)
                · intro k e h
                  simp only [TT.set] at h
                  by_cases hk : k = key
                  · subst hk
                    rw [if_pos rfl] at h
                    obtain rfl := (Option.some.inj h).symm
                    refine Or.inr (Or.inr ⟨rfl, rfl, ?_⟩)
                    rcases hbm with h2 | ⟨m2, hm2, h2⟩
                    · exact Or.inl h2
                    · exact Or.inr ⟨m2, hm2, h2⟩
                  · rw [if_neg hk] at h
                    rcases htt2 k e h with h2 | h2
                    · rcases htt1 k e h2 with h3 | h3
                      · exact Or.inl h3
                      · exact Or.inr (Or.inl h3)
                    · exact Or.inr (Or.inl (by omega))
            by_cases hnm : 3 ≤ depth ∧ inCheckTest bd side myK = false
            · rw [if_pos hnm]
              have hstep1 : ∀ k e,
                  (search clock start limitMs bd hB hW side.other (depth - 3 - 1) (-beta)
                    (-beta + 1) key (ply + 1) none
                    { st with idx := st.idx + 1 }).2.tt k = some e →
                  st.tt k = some e ∨ e.depth < depth := by
                intro k e h
                rcases (ih (depth - 3 - 1).toNat (by omega) (depth - 3 - 1) le_rfl clock start
                    limitMs bd hB hW side.other (-beta) (-beta + 1) key (ply + 1) none
                    { st with idx := st.idx + 1 }).2 k e h with h2 | h2 | h2
                · exact Or.inl h2
                · exact Or.inr (by omega)
                · exact Or.inr (by omega)
              dsimp only
              split
              · exact ⟨Or.inl rfl, fun k e h => (hstep1 k e h).imp id Or.inl⟩
              · exact hrest _ _ rfl (fun k e h => hstep1 k e h)
            · rw [if_neg hnm]
              dsimp only
              rw [if_neg (by simp : ¬(false = true))]
              exact hrest _ _ rfl (fun k e h => Or.inl h)

theorem aspirationUpdate_best (score : ℚ) (move : Option PackedMove) (ts : ThinkSt) :
    (aspirationUpdate score move ts).best = ts.best
      ∨ move = some ((aspirationUpdate score move ts).best) := by
  unfold aspirationUpdate
  by_cases h1 : score ≤ ts.wAlpha
  · rw [if_pos h1]
    exact Or.inl rfl
  · rw [if_neg h1]
    by_cases h2 : score ≥ ts.wBeta
    · rw [if_pos h2]
      exact Or.inl rfl
    · rw [if_neg h2]
      rcases move with _ | mv
      · exact Or.inl rfl
      · exact Or.inr rfl

theorem aspirationUpdate_depth (score : ℚ) (move : Option PackedMove) (ts : ThinkSt) :
    ts.depth ≤ (aspirationUpdate score move ts).depth := by
  unfold aspirationUpdate
  by_cases h1 : score ≤ ts.wAlpha
  · rw [if_pos h1]
  · rw [if_neg h1]
    by_cases h2 : score ≥ ts.wBeta
    · rw [if_pos h2]
    · rw [if_neg h2]
      show ts.depth ≤ ts.depth + 1
      omega

theorem thinkLoop_best (clock : Nat → Int) (start timeLimit maxDepth : Int)
    (bd : Board) (hB hW : Hand) (side : Side) : ∀ (fuel : Nat) (ts : ThinkSt) (st : SState),
    (∃ m ∈ enumerateMovesGeneric bd hB hW side, ts.best = pack m) →
    (∀ e, st.tt (keyBoard bd hB hW side) = some e → ts.depth ≤ e.depth →
      (e.best = none ∨ ∃ m ∈ enumerateMovesGeneric bd hB hW side, e.best = some (pack m))) →
    ∃ m ∈ enumerateMovesGeneric bd hB hW side,
      thinkLoop clock start timeLimit maxDepth bd hB hW side fuel ts st = pack m := by
  intro fuel
  induction fuel with
  | zero =>
    intro ts st hbest _
    exact hbest
  | succ fuel ihf =>
    intro ts st hbest hinv
    simp only [thinkLoop]
    by_cases hdm : ts.depth > maxDepth
    · rw [if_pos hdm]
      exact hbest
    · rw [if_neg hdm]
      by_cases hrem : timeLimit - (clock st.idx - start) < 100
      · rw [if_pos hrem]
        exact hbest
      · rw [if_neg hrem]
        have hs := search_invariants ts.depth.toNat ts.depth le_rfl clock start timeLimit
          bd hB hW side ts.wAlpha ts.wBeta (keyBoard bd hB hW side) 0 (some ts.best)
          { st with idx := st.idx + 1 }
        set rs := search clock start timeLimit bd hB hW side ts.depth ts.wAlpha ts.wBeta
          (keyBoard bd hB hW side) 0 (some ts.best) { st with idx := st.idx + 1 } with hrs
        have hmv : rs.1.move = none
            ∨ ∃ m ∈ enumerateMovesGeneric bd hB hW side, rs.1.move = some (pack m) := by
          rcases hs.1 with h | h | ⟨e, hte, hde, hbe⟩
          · exact Or.inl h
          · exact Or.inr h
          · rcases hinv e hte hde with h2 | ⟨m2, hm2, h2⟩
            · exact Or.inl (hbe.trans h2)
            · exact Or.inr ⟨m2, hm2, hbe.trans h2⟩
        have hbest2 : ∃ m ∈ enumerateMovesGeneric bd hB hW side,
            (aspirationUpdate rs.1.score rs.1.move ts).best = pack m := by
          rcases aspirationUpdate_best rs.1.score rs.1.move ts with h | h
          · rw [h]
            exact hbest
          · rcases hmv with h2 | ⟨m2, hm2, h2⟩
            · exact absurd (h2.symm.trans h) (by simp)
            · exact ⟨m2, hm2, (Option.some.inj (h2.symm.trans h)).symm⟩
        have hinv2 : ∀ e,
            rs.2.tt (keyBoard bd hB hW side) = some e →
            (aspirationUpdate rs.1.score rs.1.move ts).depth ≤ e.depth →
            (e.best = none
              ∨ ∃ m ∈ enumerateMovesGeneric bd hB hW side, e.best = some (pack m)) := by
          intro e he hde
          have hd1 := aspirationUpdate_depth rs.1.score rs.1.move ts
          rcases hs.2 (keyBoard bd hB hW side) e he with h | h | h
          · exact hinv e h (by omega)
          · exact absurd hde (by omega)
          · exact h.2.2
        by_cases hfl : rs.1.score ≤ ts.wAlpha ∨ rs.1.score ≥ ts.wBeta
        · rw [if_pos hfl]
          exact ihf _ _ hbest2 hinv2
        · rw [if_neg hfl]
          by_cases hstop : clock rs.2.idx - start > timeLimit
          · rw [if_pos hstop]
            exact hbest2
          · rw [if_neg hstop]
            exact ihf _ _ hbest2 hinv2

/-- C1: `think` returns `none` exactly when the move generator produces no
moves for the side to move at the root position; when at least one root
move is generated, the returned token packs one of the generated root
moves. -/
theorem think_root_moves (clock : Nat → Int) (fuel : Nat) (bd : Board) (hB hW : Hand)
    (side : Side) (timeMs : Int) :
    (think clock fuel bd hB hW side timeMs = none
      ↔ enumerateMovesGeneric bd hB hW side = [])
    ∧ ∀ t, think clock fuel bd hB hW side timeMs = some t →
        ∃ m ∈ enumerateMovesGeneric bd hB hW side, t = pack m := by
  cases hE : enumerateMovesGeneric bd hB hW side with
  | nil =>
    have hthink : think clock fuel bd hB hW side timeMs = none := by
      simp only [think]
      rw [hE]
    refine ⟨by simp [hthink, hE], ?_⟩
    intro t ht
    rw [hthink] at ht
    exact absurd ht (by simp)
  | cons m0 rest =>
    have hthink : think clock fuel bd hB hW side timeMs
        = some (thinkLoop clock (clock 0) (min timeMs 8000)
            (if min timeMs 8000 < 1500 then 5 else if min timeMs 8000 < 3000 then 6 else 7)
            bd hB hW side fuel
            ⟨1, 50, -1000000000, 1000000000, pack m0, -1000000000⟩
            ⟨fun _ => none, fun _ => [], fun _ => 0, 1⟩) := by
      simp only [think]
      rw [hE]
    refine ⟨by simp [hthink, hE], ?_⟩
    intro t ht
    rw [hthink] at ht
    obtain rfl := (Option.some.inj ht).symm
    have hb0 : ∃ m ∈ enumerateMovesGeneric bd hB hW side,
        (⟨1, 50, -1000000000, 1000000000, pack m0, -1000000000⟩ : ThinkSt).best = pack m :=
      ⟨m0, by rw [hE]; exact List.mem_cons_self m0 rest, rfl⟩
    rw [← hE]
    exact thinkLoop_best clock (clock 0) (min timeMs 8000) _ bd hB hW side fuel
      ⟨1, 50, -1000000000, 1000000000, pack m0, -1000000000⟩
      ⟨fun _ => none, fun _ => [], fun _ => 0, 1⟩ hb0
      (fun e he _ => Option.noConfusion he)

theorem think_root_moves_witness :
    think clockHard 1 bdEmpty hEmpty hEmpty Side.black 1000 = none
    ∧ ∃ m ∈ enumerateMovesGeneric bdOneWP hEmpty hEmpty Side.white,
        (['m', ':', '4', ',', '4', ',', '3', ',', '4', ',', '0'] : PackedMove) = pack m :=
  ⟨(think_root_moves clockHard 1 bdEmpty hEmpty hEmpty Side.black 1000).1.mpr (by decide),
   (think_root_moves clockHard 1 bdOneWP hEmpty hEmpty Side.white 1000).2 _ (by decide)⟩

end ShogiAI
